import Mathlib

/-!
Verification development for the Tweede-Kamer-API ingester repository.

The repository contains two ingestion scripts:
  * src/json_crawler.py   — OData/JSON crawler: pages via $skip, appends records to a
    local JSONL file, saves the skip cursor after each page, and uploads the whole
    file as offset-named shards once at the end of the run (push_to_hf).
  * src/batched_ingest.py — Atom/SyncFeed crawler: pages via skiptoken, processes
    entries (tombstone filter, enclosure fetch, PDF/text extraction), accumulates a
    batch, publishes batch-numbered parquet files (push_batch_to_hf) and saves the
    skiptoken after the publish call.

This file gives a shallow embedding of both scripts.  Pure string processing
(clean_text, strip, content-type normalisation) is modelled character-exactly on
List Char; external I/O (the feed, enclosure downloads, the object store) is
modelled by oracle functions supplied as inputs; the main loops are modelled as
fuel-indexed structural recursions producing an event trace (fetch attempts,
sleeps, record collection, publish calls, cursor saves).  Python regular
expressions of clean_text are implemented by direct recursive functions with the
same left-to-right, leftmost-match semantics; Python's \s is modelled by the
ASCII whitespace characters.
-/

namespace TK

/-! ### Whitespace, Python str.strip, and the clean_text pipeline -/

/-- ASCII whitespace, modelling Python's \s character class (re module) on
ASCII input: space, tab, newline, carriage return, vertical tab, form feed. -/
def isWs (c : Char) : Bool :=
  c = ' ' || c = '\t' || c = '\n' || c = '\r' || c = '\x0b' || c = '\x0c'

/-- Whether a character list starts with a whitespace character. -/
def headIsWs : List Char → Bool
  | [] => false
  | c :: _ => isWs c

/-- Remove trailing whitespace (the right half of Python's str.strip). -/
def dropEndWs : List Char → List Char
  | [] => []
  | c :: cs =>
    if isWs c then
      if dropEndWs cs = [] then [] else c :: dropEndWs cs
    else c :: dropEndWs cs

/-- Python str.strip(): remove leading and trailing whitespace. -/
def pyStrip (l : List Char) : List Char :=
  dropEndWs (l.dropWhile isWs)

/-- Python str.strip() on String. -/
def pyStripS (s : String) : String :=
  String.mk (pyStrip s.data)

/-- Skip to just after the first '>' of the list; none if there is no '>'. -/
def afterGt : List Char → Option (List Char)
  | [] => none
  | c :: cs => if c = '>' then some cs else afterGt cs

/-- Match the regex `[^>]+>` at the start of the list (the part of `<[^>]+>`
after the '<'): the list must start with a non-'>' character and contain a '>';
returns the remainder after that first '>'. -/
def matchTag : List Char → Option (List Char)
  | [] => none
  | c :: cs => if c = '>' then none else afterGt cs

/-- Whether the regex `<[^>]+>` matches anywhere in the list. -/
def hasTag : List Char → Bool
  | [] => false
  | c :: cs =>
    if c = '<' then (matchTag cs).isSome || hasTag cs else hasTag cs

/-- One left-to-right pass of `re.sub(r"<[^>]+>", "", text)`: at a '<' that
begins a match the whole match is removed and scanning resumes after it; any
other character is kept.  Fuel-indexed structural recursion; every recursive
call is on a strictly shorter list, so fuel = length of the input suffices. -/
def stripTagsF : Nat → List Char → List Char
  | _, [] => []
  | 0, l => l
  | fuel + 1, c :: cs =>
    if c = '<' then
      match matchTag cs with
      | some rest => stripTagsF fuel rest
      | none => c :: stripTagsF fuel cs
    else c :: stripTagsF fuel cs

/-- `re.sub(r"<[^>]+>", "", ·)` on a character list. -/
def stripTags (l : List Char) : List Char :=
  stripTagsF l.length l

/-- Drop a literal pattern from the front of a list; none if it is not there. -/
def dropLit : List Char → List Char → Option (List Char)
  | [], l => some l
  | _ :: _, [] => none
  | p :: ps, c :: cs => if c = p then dropLit ps cs else none

/-- Find the first occurrence of a literal pattern; returns the remainder after
the occurrence. -/
def findLit (pat : List Char) : List Char → Option (List Char)
  | [] => dropLit pat []
  | c :: cs =>
    match dropLit pat (c :: cs) with
    | some r => some r
    | none => findLit pat cs

def scriptL : List Char := ['s', 'c', 'r', 'i', 'p', 't']

def styleL : List Char := ['s', 't', 'y', 'l', 'e']

/-- The closing literal `</tag>`. -/
def closeTag (tag : List Char) : List Char :=
  '<' :: '/' :: (tag ++ ['>'])

/-- After `<script` (or `<style`) has been consumed, match the rest of the lazy
regex `.*?>.*?</tag>` with DOTALL: the first quantifier stops at the first '>',
the second at the first following `</tag>`.  (If no `</tag>` follows the first
'>', none follows any later '>' either, so no backtracking case is lost.) -/
def ssTail (tag : List Char) (r1 : List Char) : Option (List Char) :=
  match afterGt r1 with
  | none => none
  | some r2 => findLit (closeTag tag) r2

/-- Match the regex `(script|style).*?>.*?</\1>` at the start of the list (the
part of the script/style pattern after the '<'). -/
def matchSS (cs : List Char) : Option (List Char) :=
  match dropLit scriptL cs with
  | some r1 => ssTail scriptL r1
  | none =>
    match dropLit styleL cs with
    | some r1 => ssTail styleL r1
    | none => none

/-- One left-to-right pass of
`re.sub(r"<(script|style).*?>.*?</\1>", "", text, flags=re.DOTALL)`. -/
def stripSSF : Nat → List Char → List Char
  | _, [] => []
  | 0, l => l
  | fuel + 1, c :: cs =>
    if c = '<' then
      match matchSS cs with
      | some rest => stripSSF fuel rest
      | none => c :: stripSSF fuel cs
    else c :: stripSSF fuel cs

/-- `re.sub(r"<(script|style).*?>.*?</\1>", "", ·, flags=re.DOTALL)`. -/
def stripSS (l : List Char) : List Char :=
  stripSSF l.length l

/-- `re.sub(r"\s+", " ", ·)`: replace every maximal whitespace run by one
space. -/
def collapseWsF : Nat → List Char → List Char
  | _, [] => []
  | 0, l => l
  | fuel + 1, c :: cs =>
    if isWs c then ' ' :: collapseWsF fuel (cs.dropWhile isWs)
    else c :: collapseWsF fuel cs

/-- `re.sub(r"\s+", " ", ·)` on a character list. -/
def collapseWs (l : List Char) : List Char :=
  collapseWsF l.length l

/-- Normal form produced by whitespace collapsing: every whitespace character
is a single space not followed by further whitespace. -/
def isCollapsed : List Char → Bool
  | [] => true
  | c :: cs => (!isWs c || (decide (c = ' ') && !headIsWs cs)) && isCollapsed cs

/-- The clean_text pipeline on a character list: remove script/style blocks,
then remove remaining tags, then collapse whitespace runs, then strip. -/
def cleanTextL (l : List Char) : List Char :=
  pyStrip (collapseWs (stripTags (stripSS l)))

/-- clean_text from src/json_crawler.py: `if not text: return ""`, then the
three re.sub passes and the final .strip(). -/
def cleanText (s : String) : String :=
  if s.data = [] then "" else String.mk (cleanTextL s.data)

/-! ### Records and the json_crawler document model -/

/-- An output record: `{"URL": ..., "Content"/"content": ..., "Source": ...}`
as written by emit_jsonl (json_crawler) and fetch_and_process_entry
(batched_ingest). -/
structure Rec where
  url : String
  content : String
  source : String
  deriving DecidableEq, Repr

/-- One OData document as consumed by emit_jsonl in src/json_crawler.py:
the optional string fields the code reads via doc.get, plus the feed's
deletion marker Verwijderd, which is present in the feed's entries but is
never read by json_crawler (the default ODATA_PARAMS ask the server to
filter on it instead). -/
structure JDoc where
  resourceUrl : Option String
  idField : Option String
  documentId : Option String
  urlField : Option String
  odataId : Option String
  tekst : Option String
  bodyText : Option String
  body : Option String
  omschrijving : Option String
  titel : Option String
  verwijderd : Option Bool
  deriving DecidableEq, Repr

/-- Python's `a or b` on optional strings: `a` unless it is missing or the
empty string (falsy), else `b`. -/
def pyOr (a b : Option String) : Option String :=
  match a with
  | some s => if s = "" then b else some s
  | none => b

/-- `doc.get("ResourceUrl") or doc.get("Id") or doc.get("DocumentId") or
doc.get("url") or doc.get("@odata.id")` from emit_jsonl. -/
def pickUrl (d : JDoc) : Option String :=
  pyOr d.resourceUrl (pyOr d.idField (pyOr d.documentId (pyOr d.urlField d.odataId)))

/-- `doc.get("Tekst") or doc.get("BodyText") or doc.get("Body") or
doc.get("Omschrijving") or doc.get("Titel") or ""` from emit_jsonl. -/
def pickText (d : JDoc) : String :=
  (pyOr d.tekst (pyOr d.bodyText (pyOr d.body (pyOr d.omschrijving
    (pyOr d.titel (some "")))))).getD ""

/-- Python str() on the url value: None prints as "None". -/
def pyStr : Option String → String
  | some s => s
  | none => "None"

/-- emit_jsonl from src/json_crawler.py: one record is appended to the output
file for every document in the page — unconditionally. -/
def emitJsonl (docs : List JDoc) (label : String) : List Rec :=
  docs.map fun d => ⟨pyStr (pickUrl d), cleanText (pickText d), label⟩

/-- The default ODATA_PARAMS of src/json_crawler.py:
`{"$filter": "Verwijderd eq false"}`. -/
def odataParamsDefault : List (String × String) :=
  [("$filter", "Verwijderd eq false")]

/-- The query parameters sent by fetch_documents(skip, top): the default
ODATA_PARAMS plus $top and $skip. -/
def fetchDocumentsParams (skip top : Nat) : List (String × String) :=
  odataParamsDefault ++ [("$top", toString top), ("$skip", toString skip)]

/-! ### batched_ingest entry processing -/

/-- The outcome of the enclosure GET for one entry (an input of the model:
the remote document server is an external collaborator).  `text` is
dresp.text; `pdfText` is convert_pdf_to_text(dresp.content), the result of the
external pdftotext conversion. -/
structure BFetchResp where
  contentTypeHeader : Option String
  text : String
  pdfText : String
  deriving DecidableEq, Repr

/-- One Atom entry as consumed by fetch_and_process_entry in
src/batched_ingest.py.  `verwijderd` is the tk:verwijderd attribute of the
nested content XML when the atom:content text is present, non-empty and parses
as XML (none otherwise).  `enclosureHref` is the href of the
atom:link[rel=enclosure] element (none when the link or its href is absent).
`resp` is none when the enclosure GET raises a RequestException. -/
structure BEntry where
  entryId : String
  verwijderd : Option String
  enclosureHref : Option String
  resp : Option BFetchResp
  deriving DecidableEq, Repr

/-- Python str.lower() (ASCII). -/
def lowerS (s : String) : String :=
  String.mk (s.data.map Char.toLower)

/-- Whether `s` starts with the literal `p` (str.startswith). -/
def strStarts (p s : String) : Bool :=
  (dropLit p.data s.data).isSome

/-- `dresp.headers.get('Content-Type', '').split(';')[0].strip().lower()`. -/
def pyContentType (h : Option String) : String :=
  lowerS (pyStripS (String.mk ((h.getD "").data.takeWhile fun c => c != ';')))

/-- fetch_and_process_entry from src/batched_ingest.py: tombstone check, then
enclosure resolution (an absent or empty href is a discard), then the GET
(failure is a discard), then classification by declared content type
(application/pdf → converted text; text/* or application/xml → the raw body;
anything else → discard), then the emptiness check on the strip of the
fetched content. -/
def fetchAndProcessEntry (e : BEntry) : Option Rec :=
  if e.verwijderd = some "true" then none
  else
    match e.enclosureHref with
    | none => none
    | some url =>
      if url = "" then none
      else
        match e.resp with
        | none => none
        | some resp =>
          let ct := pyContentType resp.contentTypeHeader
          if ct = "application/pdf" then
            if pyStripS resp.pdfText = "" then none
            else some ⟨url, resp.pdfText, "Tweede Kamer"⟩
          else if strStarts "text/" ct || ct = "application/xml" then
            if pyStripS resp.text = "" then none
            else some ⟨url, resp.text, "Tweede Kamer"⟩
          else none

/-! ### The shard publishers -/

/-- Result of a push_to_hf call.  `attempted` lists the shard destinations for
which api.upload_file was called, in order; `uploaded` those whose upload
succeeded; `n` is the count of lines in successfully uploaded shards (the
code's running total); `err` records that an upload raised and the exception
escaped push_to_hf (upload_file is not wrapped in try/except there), aborting
the remaining slices. -/
structure PushOut where
  attempted : List String
  uploaded : List String
  n : Nat
  err : Bool
  deriving DecidableEq, Repr

/-- The deterministic shard destination `shards/shard_{i}_{i+len}.jsonl`. -/
def shardName (s e : Nat) : String :=
  "shards/shard_" ++ toString s ++ "_" ++ toString e ++ ".jsonl"

/-- The slice loop of push_to_hf: `for i in range(0, len(lines), SHARD_SIZE)`,
slice `lines[i:i+SHARD_SIZE]`, destination shardName i (i+len(slice)); a
destination already in the repo listing is skipped, otherwise upload_file is
called — an upload failure propagates out of the loop.  Fuel-indexed (each
step consumes at least one line, so fuel = number of lines suffices);
requires a positive shard size like the Python range does. -/
def pushLoopF (shardSize : Nat) (repo : List String) (ok : String → Bool) :
    Nat → Nat → List Rec → PushOut
  | _, _, [] => ⟨[], [], 0, false⟩
  | 0, _, _ :: _ => ⟨[], [], 0, false⟩
  | fuel + 1, i, x :: xs =>
    let shard := (x :: xs).take shardSize
    let nm := shardName i (i + shard.length)
    let rest := xs.drop (shardSize - 1)
    if nm ∈ repo then pushLoopF shardSize repo ok fuel (i + shardSize) rest
    else if ok nm then
      let r := pushLoopF shardSize repo ok fuel (i + shardSize) rest
      ⟨nm :: r.attempted, nm :: r.uploaded, shard.length + r.n, r.err⟩
    else ⟨[nm], [], 0, true⟩

/-- push_to_hf from src/json_crawler.py, as a function of the output-file
lines, the remote listing (the result of list_repo_files, or the empty
fallback when listing fails) and an upload-success oracle. -/
def pushToHf (shardSize : Nat) (repo : List String) (ok : String → Bool)
    (lines : List Rec) : PushOut :=
  pushLoopF shardSize repo ok lines.length 0 lines

/-- The destinations of all slices of the given lines, in slice order. -/
def chunkNamesF (shardSize : Nat) : Nat → Nat → List Rec → List String
  | _, _, [] => []
  | 0, _, _ :: _ => []
  | fuel + 1, i, x :: xs =>
    shardName i (i + ((x :: xs).take shardSize).length) ::
      chunkNamesF shardSize fuel (i + shardSize) (xs.drop (shardSize - 1))

def chunkNames (shardSize : Nat) (lines : List Rec) : List String :=
  chunkNamesF shardSize lines.length 0 lines

/-- Result of a push_batch_to_hf call.  `uploadCalls` lists the repo paths for
which api.upload_file was called; `uploaded` those that succeeded; `cleaned`
records that no local parquet artifact is left behind (the finally block);
`err` records that an exception escaped the function — it never does, because
the whole body is wrapped in try/except. -/
structure BPushOut where
  uploadCalls : List String
  uploaded : List String
  cleaned : Bool
  err : Bool
  deriving DecidableEq, Repr

/-- push_batch_to_hf from src/batched_ingest.py: an empty batch returns at
once; otherwise the batch is written to one parquet file named by the batch
number only — `data/batch_{batch_number}.parquet` — and uploaded without any
existence check against the repository.  An upload failure is caught and
logged, and the finally block removes the local file either way. -/
def pushBatchToHf (docs : List Rec) (batchNumber : Nat) (ok : String → Bool) :
    BPushOut :=
  if docs = [] then ⟨[], [], true, false⟩
  else
    let dest := "data/batch_" ++ toString batchNumber ++ ".parquet"
    if ok dest then ⟨[dest], [dest], true, false⟩
    else ⟨[dest], [], true, false⟩

/-! ### Event traces and trace predicates -/

/-- Events of one ingestion run, shared by both main-loop models:
`fetchTry a ok` is one page-fetch request (attempt number a within its retry
loop), `sleep n` a time.sleep(n), `collect rs` the extraction of records rs
from a page into the unpublished pool (the local output file for
json_crawler, docs_for_current_batch for batched_ingest), `save v` a
cursor-write (save_state / save_skiptoken), and `push rs` a publish call
covering the records rs (push_to_hf / push_batch_to_hf). -/
inductive Ev where
  | fetchTry (attempt : Nat) (ok : Bool)
  | sleep (n : Nat)
  | collect (recs : List Rec)
  | save (v : Int)
  | push (recs : List Rec)
  deriving DecidableEq, Repr

/-- Scan of a trace checking, at every cursor-write, that every record
collected so far was covered by an earlier publish call.  `col` and `pus` are
the records collected and covered-by-publish so far. -/
def savesOKAux : List Rec → List Rec → List Ev → Bool
  | _, _, [] => true
  | col, pus, Ev.collect rs :: tl => savesOKAux (col ++ rs) pus tl
  | col, pus, Ev.push rs :: tl => savesOKAux col (pus ++ rs) tl
  | col, pus, Ev.save _ :: tl =>
    col.all (fun r => decide (r ∈ pus)) && savesOKAux col pus tl
  | col, pus, _ :: tl => savesOKAux col pus tl

/-- Claim C1's property of a run: no cursor-write precedes the publish of the
records fetched up to it. -/
def savesAfterPublishB (tr : List Ev) : Bool :=
  savesOKAux [] [] tr

/-- Records collected over a trace, appended to an accumulator. -/
def colAfter : List Rec → List Ev → List Rec
  | col, [] => col
  | col, Ev.collect rs :: tl => colAfter (col ++ rs) tl
  | col, _ :: tl => colAfter col tl

/-- Records covered by publish calls over a trace, appended to an
accumulator. -/
def pusAfter : List Rec → List Ev → List Rec
  | pus, [] => pus
  | pus, Ev.push rs :: tl => pusAfter (pus ++ rs) tl
  | pus, _ :: tl => pusAfter pus tl

/-- Scan of a trace checking, at the first attempt of every fetch cycle, that
fewer than T records are held unpublished.  `n` is the running count of
unpublished records (collected minus published). -/
def thrOKAux (T : Nat) : Nat → List Ev → Bool
  | _, [] => true
  | n, Ev.fetchTry 0 _ :: tl => decide (n < T) && thrOKAux T n tl
  | n, Ev.collect rs :: tl => thrOKAux T (n + rs.length) tl
  | n, Ev.push rs :: tl => thrOKAux T (n - rs.length) tl
  | n, _ :: tl => thrOKAux T n tl

/-- Claim C7's property of a run: the loop never enters a fetch cycle holding
T or more unpublished records. -/
def thresholdOKB (T : Nat) (tr : List Ev) : Bool :=
  thrOKAux T 0 tr

/-- The running unpublished count after a trace. -/
def unpubAfter : Nat → List Ev → Nat
  | n, [] => n
  | n, Ev.collect rs :: tl => unpubAfter (n + rs.length) tl
  | n, Ev.push rs :: tl => unpubAfter (n - rs.length) tl
  | n, _ :: tl => unpubAfter n tl

/-- Total number of records collected over a run. -/
def collectedCount : List Ev → Nat
  | [] => 0
  | Ev.collect rs :: tl => rs.length + collectedCount tl
  | _ :: tl => collectedCount tl

def countFetchTry (tr : List Ev) : Nat :=
  tr.countP fun e => match e with | Ev.fetchTry _ _ => true | _ => false

def countSleep (tr : List Ev) : Nat :=
  tr.countP fun e => match e with | Ev.sleep _ => true | _ => false

def countSave (tr : List Ev) : Nat :=
  tr.countP fun e => match e with | Ev.save _ => true | _ => false

/-! ### The json_crawler main loop -/

/-- Configuration of json_crawler (BATCH_SIZE, MAX_ENTRIES, SOURCE_LABEL, and
whether HF_TOKEN is set). -/
structure JCfg where
  batchSize : Nat
  maxEntries : Nat
  sourceLabel : String
  hasToken : Bool

/-- The final state of a json_crawler run: the event trace, the contents of
the OUTPUT_PATH file, the skip value currently persisted in STATE_PATH, the
total counter, and whether the run aborted on fetch-retry exhaustion. -/
structure JOut where
  events : List Ev
  fileRecs : List Rec
  savedSkip : Nat
  total : Nat
  aborted : Bool
  deriving DecidableEq, Repr

/-- The `for attempt in range(3)` retry loop around fetch_documents: the
oracle maps the attempt number to the fetched page (none = exception).  Each
failed attempt logs and sleeps 3 seconds; success breaks out; exhaustion
yields none (the for-else abort). -/
def retryFetchAux (oracle : Nat → Option (List JDoc)) :
    Nat → Nat → List Ev × Option (List JDoc)
  | _, 0 => ([], none)
  | attempt, r + 1 =>
    match oracle attempt with
    | some docs => ([Ev.fetchTry attempt true], some docs)
    | none =>
      let p := retryFetchAux oracle (attempt + 1) r
      (Ev.fetchTry attempt false :: Ev.sleep 3 :: p.1, p.2)

def retryFetch (oracle : Nat → Option (List JDoc)) :
    List Ev × Option (List JDoc) :=
  retryFetchAux oracle 0 3

/-- The while loop of json_crawler's main: while total < MAX_ENTRIES, fetch a
page at the current skip (with retries), break on abort or empty page,
otherwise append the page's records to the output file, advance total and
skip, save the state, and break if the page was short.  The fetch oracle maps
(skip, attempt) to the page.  Fuel-indexed: every continuing iteration adds at
least one document to total, so fuel = MAX_ENTRIES suffices (jcMain passes
exactly that). -/
def jcLoop (cfg : JCfg) (oracle : Nat → Nat → Option (List JDoc)) :
    Nat → Nat → Nat → List Rec → Nat → List Ev → JOut
  | 0, _, total, file, savedSkip, events => ⟨events, file, savedSkip, total, false⟩
  | fuel + 1, skip, total, file, savedSkip, events =>
    if total < cfg.maxEntries then
      let fr := retryFetch (oracle skip)
      match fr.2 with
      | none => ⟨events ++ fr.1, file, savedSkip, total, true⟩
      | some docs =>
        if docs = [] then ⟨events ++ fr.1, file, savedSkip, total, false⟩
        else
          let recs := emitJsonl docs cfg.sourceLabel
          let skip' := skip + docs.length
          let total' := total + docs.length
          let file' := file ++ recs
          let events' := events ++ fr.1 ++ [Ev.collect recs, Ev.save (skip' : Int)]
          if docs.length < cfg.batchSize then ⟨events', file', skip', total', false⟩
          else jcLoop cfg oracle fuel skip' total' file' skip' events'
    else ⟨events, file, savedSkip, total, false⟩

/-- main() of src/json_crawler.py: run the loop from the persisted skip, then
— token present or not, aborted or not — push the whole output file (its
pre-run contents included) to the hub in one push_to_hf call, or skip the
upload entirely when HF_TOKEN is absent. -/
def jcMain (cfg : JCfg) (oracle : Nat → Nat → Option (List JDoc))
    (skip0 : Nat) (initFile : List Rec) : JOut :=
  let o := jcLoop cfg oracle cfg.maxEntries skip0 0 initFile skip0 []
  if cfg.hasToken then { o with events := o.events ++ [Ev.push o.fileRecs] }
  else o

/-! ### The batched_ingest main loop -/

/-- Configuration of batched_ingest (TOTAL_DOCUMENT_LIMIT and
UPLOAD_BATCH_SIZE). -/
structure BCfg where
  limit : Nat
  uploadBatchSize : Nat

/-- The final state of a batched_ingest run: the trace, the total collected,
the remaining unpublished batch, the current skiptoken, the skiptoken
persisted in the progress database, and the next batch number. -/
structure BOut where
  events : List Ev
  total : Nat
  batch : List Rec
  tok : Option Int
  savedTok : Int
  batchNumber : Nat
  deriving DecidableEq, Repr

/-- The skiptoken parameter actually sent by fetch_api_page: present only if
the current token is not None and positive. -/
def effTok : Option Int → Option Int
  | none => none
  | some t => if 0 < t then some t else none

/-- fetch_api_page from src/batched_ingest.py: one single GET (no retry); a
RequestException yields ([], None); otherwise the page's entries are processed
one by one through fetch_and_process_entry and the next skiptoken is taken
from the feed's next link.  The request oracle maps the effective skiptoken
parameter to the response (none = exception); parsing of the next link's href
is folded into the oracle's Option Int. -/
def fetchApiPage (req : Option Int → Option (List BEntry × Option Int))
    (tok : Option Int) : (List Rec × Option Int) × Ev :=
  match req (effTok tok) with
  | none => (([], none), Ev.fetchTry 0 false)
  | some pr => ((pr.1.filterMap fetchAndProcessEntry, pr.2), Ev.fetchTry 0 true)

/-- The while loop of batched_ingest's main: while total < limit, fetch one
page, break on (no docs and no next token), truncate the page to the remaining
budget, extend the batch, publish-and-save when the batch reaches the upload
threshold, then advance the token and break at end of feed.  Fuel bounds the
number of iterations (the Python loop can iterate arbitrarily often on pages
whose entries are all filtered out, so the bound is a model input; every
finite execution is some fuel's run, and the budget and ordering invariants
hold for every fuel). -/
def bLoop (cfg : BCfg) (req : Option Int → Option (List BEntry × Option Int)) :
    Nat → Option Int → Nat → List Rec → Nat → Int → List Ev → BOut
  | 0, tok, total, batch, bn, savedTok, events =>
    ⟨events, total, batch, tok, savedTok, bn⟩
  | fuel + 1, tok, total, batch, bn, savedTok, events =>
    if total < cfg.limit then
      let remaining := cfg.limit - total
      let fp := fetchApiPage req tok
      let docs := fp.1.1
      let next := fp.1.2
      if docs = [] ∧ next = none then
        ⟨events ++ [fp.2], total, batch, tok, savedTok, bn⟩
      else
        let add := docs.take remaining
        let batch1 := batch ++ add
        let total1 := total + add.length
        let evs1 := events ++ [fp.2, Ev.collect add]
        if cfg.uploadBatchSize ≤ batch1.length then
          match tok with
          | some t =>
            match next with
            | none => ⟨evs1 ++ [Ev.push batch1, Ev.save t], total1, [], none, t, bn + 1⟩
            | some _ =>
              bLoop cfg req fuel next total1 [] (bn + 1) t
                (evs1 ++ [Ev.push batch1, Ev.save t])
          | none =>
            match next with
            | none => ⟨evs1 ++ [Ev.push batch1], total1, [], none, savedTok, bn + 1⟩
            | some _ =>
              bLoop cfg req fuel next total1 [] (bn + 1) savedTok
                (evs1 ++ [Ev.push batch1])
        else
          match next with
          | none => ⟨evs1, total1, batch1, none, savedTok, bn⟩
          | some _ => bLoop cfg req fuel next total1 batch1 bn savedTok evs1
    else ⟨events, total, batch, tok, savedTok, bn⟩

/-- main() of src/batched_ingest.py: run the loop from the stored skiptoken
(an Int, -1 on cold start), then push any remaining batch, then save the final
skiptoken if it is not None. -/
def bMain (cfg : BCfg) (req : Option Int → Option (List BEntry × Option Int))
    (tok0 : Int) (fuel : Nat) : BOut :=
  let s := bLoop cfg req fuel (some tok0) 0 [] 1 tok0 []
  let s1 :=
    if s.batch = [] then s
    else { s with events := s.events ++ [Ev.push s.batch] }
  match s1.tok with
  | some t => { s1 with events := s1.events ++ [Ev.save t], savedTok := t }
  | none => s1

/-! ### Concrete fixtures used by counterexamples and witnesses -/

/-- A document whose only text field is Titel = "x". -/
def docT : JDoc :=
  ⟨none, none, none, none, none, none, none, none, none, some "x", none⟩

/-- A document with no url and no text fields at all. -/
def docEmpty : JDoc :=
  ⟨none, none, none, none, none, none, none, none, none, none, none⟩

/-- A document marked deleted by the feed (Verwijderd = true) whose Titel is
"x". -/
def docDel : JDoc :=
  ⟨none, none, none, none, none, none, none, none, none, some "x", some true⟩

/-- An entry whose enclosure serves text/html with a markup body. -/
def entryHtml : BEntry :=
  ⟨"id", none, some "http://x", some ⟨some "text/html", "<b>hi</b>", ""⟩⟩

/-- An entry whose enclosure serves text/plain with padded text. -/
def entryPlain : BEntry :=
  ⟨"id", none, some "http://x", some ⟨some "text/plain", " hi ", ""⟩⟩

/-- An entry marked deleted (tk:verwijderd = "true") that would otherwise
yield a record. -/
def entryDeleted : BEntry :=
  ⟨"id", some "true", some "http://x", some ⟨some "text/plain", "hi", ""⟩⟩

def recA : Rec := ⟨"u", "a", "s"⟩

def recB : Rec := ⟨"u", "b", "s"⟩

/-! ## Lemmas about the clean_text pipeline -/

theorem afterGt_some_length {l r : List Char} (h : afterGt l = some r) :
    r.length < l.length := by
  induction l with
  | nil => simp [afterGt] at h
  | cons c cs ih =>
    by_cases hc : c = '>'
    · simp [afterGt, hc] at h
      subst h
      simp only [List.length_cons]
      omega
    · simp [afterGt, hc] at h
      have := ih h
      simp only [List.length_cons]
      omega

theorem afterGt_eq_none {l : List Char} : afterGt l = none ↔ '>' ∉ l := by
  induction l with
  | nil => simp [afterGt]
  | cons c cs ih =>
    by_cases hc : c = '>'
    · subst hc; simp [afterGt]
    · rw [show afterGt (c :: cs) = afterGt cs from by simp [afterGt, hc]]
      constructor
      · intro h
        intro hm
        rcases List.mem_cons.mp hm with h1 | h1
        · exact hc h1.symm
        · exact (ih.mp h) h1
      · intro h
        exact ih.mpr fun hm => h (List.mem_cons_of_mem c hm)

theorem afterGt_isSome_of_mem {l : List Char} (h : '>' ∈ l) :
    (afterGt l).isSome = true := by
  cases hg : afterGt l with
  | none => exact absurd (afterGt_eq_none.mp hg) (not_not_intro h)
  | some r => rfl

theorem afterGt_some_suffix {l r : List Char} (h : afterGt l = some r) :
    r <:+ l := by
  induction l with
  | nil => simp [afterGt] at h
  | cons c cs ih =>
    by_cases hc : c = '>'
    · simp [afterGt, hc] at h
      exact h ▸ (List.suffix_cons c cs)
    · simp [afterGt, hc] at h
      exact (ih h).trans (List.suffix_cons c cs)

theorem matchTag_some_length {l r : List Char} (h : matchTag l = some r) :
    r.length < l.length := by
  cases l with
  | nil => simp [matchTag] at h
  | cons c cs =>
    by_cases hc : c = '>'
    · simp [matchTag, hc] at h
    · simp [matchTag, hc] at h
      have := afterGt_some_length h
      simp [List.length_cons]; omega

theorem matchTag_none_of_no_gt {l : List Char} (h : '>' ∉ l) :
    matchTag l = none := by
  cases l with
  | nil => rfl
  | cons c cs =>
    by_cases hc : c = '>'
    · simp [matchTag, hc]
    · simp [matchTag, hc]
      exact afterGt_eq_none.mpr fun hm => h (List.mem_cons_of_mem c hm)

theorem matchTag_cons_none {c : Char} {cs : List Char}
    (h : matchTag (c :: cs) = none) : c = '>' ∨ '>' ∉ cs := by
  by_cases hc : c = '>'
  · exact Or.inl hc
  · simp [matchTag, hc] at h
    exact Or.inr (afterGt_eq_none.mp h)

theorem matchTag_isSome_of_mem {c : Char} {cs : List Char} (hc : c ≠ '>')
    (h : '>' ∈ cs) : (matchTag (c :: cs)).isSome = true := by
  simp [matchTag, hc]
  exact afterGt_isSome_of_mem h

theorem stripTagsF_cons_succ (n : Nat) (c : Char) (cs : List Char) :
    stripTagsF (n + 1) (c :: cs) =
      if c = '<' then
        match matchTag cs with
        | some rest => stripTagsF n rest
        | none => c :: stripTagsF n cs
      else c :: stripTagsF n cs := rfl

theorem matchTag_some_sublist {l r : List Char} (h : matchTag l = some r) :
    List.Sublist r l := by
  cases l with
  | nil => simp [matchTag] at h
  | cons c cs =>
    by_cases hc : c = '>'
    · simp [matchTag, hc] at h
    · simp [matchTag, hc] at h
      exact ((afterGt_some_suffix h).sublist).trans (List.sublist_cons_self c cs)

theorem stripTagsF_sublist : ∀ (fuel : Nat) (l : List Char),
    List.Sublist (stripTagsF fuel l) l := by
  intro fuel
  induction fuel with
  | zero =>
    intro l
    cases l with
    | nil => simp [stripTagsF]
    | cons c cs => simp [stripTagsF]
  | succ n ih =>
    intro l
    cases l with
    | nil => simp [stripTagsF]
    | cons c cs =>
      rw [stripTagsF_cons_succ]
      by_cases hc : c = '<'
      · rw [if_pos hc]
        cases hmt : matchTag cs with
        | some rest =>
          exact ((ih rest).trans (matchTag_some_sublist hmt)).trans
            (List.sublist_cons_self c cs)
        | none => exact List.Sublist.cons₂ c (ih cs)
      · rw [if_neg hc]
        exact List.Sublist.cons₂ c (ih cs)

theorem not_mem_stripTagsF {x : Char} {fuel : Nat} {l : List Char}
    (h : x ∉ l) : x ∉ stripTagsF fuel l :=
  fun hm => h ((stripTagsF_sublist fuel l).mem hm)

theorem hasTag_cons (c : Char) (cs : List Char) :
    hasTag (c :: cs) =
      if c = '<' then (matchTag cs).isSome || hasTag cs else hasTag cs := rfl

/-- A '<' that does not begin a tag match stays unmatched after one stripping
pass: the remaining characters of the pass cannot supply it a match. -/
theorem matchTag_stripTagsF_none {n : Nat} {cs : List Char}
    (hcs : cs.length ≤ n) (hmt : matchTag cs = none) :
    matchTag (stripTagsF n cs) = none := by
  cases cs with
  | nil =>
    cases n with
    | zero => exact hmt
    | succ m => exact hmt
  | cons c2 cs2 =>
    by_cases hc2 : c2 = '>'
    · subst hc2
      cases n with
      | zero => simp [List.length_cons] at hcs
      | succ m =>
        rw [stripTagsF_cons_succ, if_neg (by decide : ¬('>' : Char) = '<')]
        simp [matchTag]
    · have hag : afterGt cs2 = none := by simpa [matchTag, hc2] using hmt
      have hnot : '>' ∉ (c2 :: cs2) := by
        intro hm
        rcases List.mem_cons.mp hm with h1 | h1
        · exact hc2 h1.symm
        · exact (afterGt_eq_none.mp hag) h1
      exact matchTag_none_of_no_gt (not_mem_stripTagsF hnot)

theorem hasTag_stripTagsF : ∀ (fuel : Nat) (l : List Char),
    l.length ≤ fuel → hasTag (stripTagsF fuel l) = false := by
  intro fuel
  induction fuel with
  | zero =>
    intro l h
    have : l = [] := List.eq_nil_of_length_eq_zero (Nat.le_zero.mp h)
    subst this; rfl
  | succ n ih =>
    intro l h
    cases l with
    | nil => rfl
    | cons c cs =>
      have hcs : cs.length ≤ n := by
        simp [List.length_cons] at h; omega
      rw [stripTagsF_cons_succ]
      by_cases hc : c = '<'
      · rw [if_pos hc]
        cases hmt : matchTag cs with
        | some rest =>
          exact ih rest (le_of_lt (lt_of_lt_of_le (matchTag_some_length hmt) hcs))
        | none =>
          rw [hasTag_cons, if_pos hc, ih cs hcs, Bool.or_false,
            matchTag_stripTagsF_none hcs hmt]
          rfl
      · rw [if_neg hc, hasTag_cons, if_neg hc]
        exact ih cs hcs

theorem stripTagsF_of_no_tag : ∀ (fuel : Nat) (l : List Char),
    hasTag l = false → l.length ≤ fuel → stripTagsF fuel l = l := by
  intro fuel
  induction fuel with
  | zero =>
    intro l _ h
    have : l = [] := List.eq_nil_of_length_eq_zero (Nat.le_zero.mp h)
    subst this; rfl
  | succ n ih =>
    intro l hnt h
    cases l with
    | nil => rfl
    | cons c cs =>
      have hcs : cs.length ≤ n := by
        simp [List.length_cons] at h; omega
      rw [hasTag_cons] at hnt
      rw [stripTagsF_cons_succ]
      by_cases hc : c = '<'
      · rw [if_pos hc] at hnt
        have h1 : (matchTag cs).isSome = false := by
          cases hb : (matchTag cs).isSome
          · rfl
          · rw [hb] at hnt; simp at hnt
        have h2 : hasTag cs = false := by
          cases hb : hasTag cs
          · rfl
          · rw [hb] at hnt; simp at hnt
        have hmt : matchTag cs = none := by
          cases hm : matchTag cs
          · rfl
          · rw [hm] at h1; simp at h1
        rw [if_pos hc, hmt, ih cs h2 hcs]
      · rw [if_neg hc] at hnt
        rw [if_neg hc, ih cs hnt hcs]

theorem matchTag_isSome_append {cs l2 : List Char}
    (h : (matchTag cs).isSome = true) : (matchTag (cs ++ l2)).isSome = true := by
  cases cs with
  | nil => simp [matchTag] at h
  | cons c cs1 =>
    by_cases hc : c = '>'
    · simp [matchTag, hc] at h
    · simp only [matchTag, hc, if_neg hc] at h
      have hm : '>' ∈ cs1 := by
        cases hg : afterGt cs1 with
        | none => rw [hg] at h; simp at h
        | some r =>
          by_contra hn
          rw [afterGt_eq_none.mpr hn] at hg
          exact Option.noConfusion hg
      exact matchTag_isSome_of_mem hc (List.mem_append_left l2 hm)

theorem hasTag_append_of_left {l1 l2 : List Char} (h : hasTag l1 = true) :
    hasTag (l1 ++ l2) = true := by
  induction l1 with
  | nil => simp [hasTag] at h
  | cons c cs ih =>
    rw [hasTag_cons] at h
    rw [List.cons_append, hasTag_cons]
    by_cases hc : c = '<'
    · rw [if_pos hc] at h
      rw [if_pos hc]
      rcases Bool.or_eq_true_iff.mp h with h1 | h1
      · rw [matchTag_isSome_append h1]
        rfl
      · rw [ih h1, Bool.or_true]
    · rw [if_neg hc] at h
      rw [if_neg hc]
      exact ih h

theorem hasTag_append_of_right {l1 l2 : List Char} (h : hasTag l2 = true) :
    hasTag (l1 ++ l2) = true := by
  induction l1 with
  | nil => simpa using h
  | cons c cs ih =>
    rw [List.cons_append, hasTag_cons]
    by_cases hc : c = '<'
    · rw [if_pos hc, ih, Bool.or_true]
    · rw [if_neg hc]
      exact ih

theorem hasTag_false_of_append {l1 l2 : List Char}
    (h : hasTag (l1 ++ l2) = false) : hasTag l1 = false ∧ hasTag l2 = false := by
  constructor
  · cases hb : hasTag l1
    · rfl
    · rw [hasTag_append_of_left hb] at h
      exact h
  · cases hb : hasTag l2
    · rfl
    · rw [hasTag_append_of_right hb] at h
      exact h

theorem hasTag_suffix_false {l1 l2 : List Char} (hs : l2 <:+ l1)
    (h : hasTag l1 = false) : hasTag l2 = false := by
  obtain ⟨t, rfl⟩ := hs
  exact (hasTag_false_of_append h).2

/-! stripSS leaves a tag-free string unchanged. -/

theorem dropLit_eq_append {p l r : List Char} (h : dropLit p l = some r) :
    l = p ++ r := by
  induction p generalizing l with
  | nil =>
    simp [dropLit] at h
    simp [h]
  | cons x xs ih =>
    cases l with
    | nil => simp [dropLit] at h
    | cons c cs =>
      by_cases hc : c = x
      · simp only [dropLit, if_pos hc] at h
        rw [List.cons_append, hc, ih h]
      · simp [dropLit, hc] at h

theorem matchSS_isSome_matchTag {cs r : List Char} (h : matchSS cs = some r) :
    (matchTag cs).isSome = true := by
  have main : ∀ tag r1, dropLit tag cs = some r1 → tag ≠ [] →
      '>' ∉ tag → ssTail tag r1 = some r → (matchTag cs).isSome = true := by
    intro tag r1 hdrop hne hngt hss
    have hcs : cs = tag ++ r1 := dropLit_eq_append hdrop
    have hr2 : ∃ r2, afterGt r1 = some r2 := by
      cases hg : afterGt r1 with
      | none => simp [ssTail, hg] at hss
      | some r2 => exact ⟨r2, rfl⟩
    obtain ⟨r2, hg⟩ := hr2
    have hmem : '>' ∈ r1 := by
      by_contra hn
      rw [afterGt_eq_none.mpr hn] at hg
      exact Option.noConfusion hg
    cases tag with
    | nil => exact absurd rfl hne
    | cons t ts =>
      rw [hcs]
      rw [List.cons_append]
      have ht : t ≠ '>' := fun he => hngt (he ▸ List.mem_cons_self t ts)
      exact matchTag_isSome_of_mem ht (List.mem_append_right ts hmem)
  unfold matchSS at h
  cases hd1 : dropLit scriptL cs with
  | some r1 =>
    rw [hd1] at h
    exact main scriptL r1 hd1 (by decide) (by decide) h
  | none =>
    rw [hd1] at h
    cases hd2 : dropLit styleL cs with
    | some r1 =>
      rw [hd2] at h
      exact main styleL r1 hd2 (by decide) (by decide) h
    | none =>
      rw [hd2] at h
      exact Option.noConfusion h

theorem stripSSF_cons_succ (n : Nat) (c : Char) (cs : List Char) :
    stripSSF (n + 1) (c :: cs) =
      if c = '<' then
        match matchSS cs with
        | some rest => stripSSF n rest
        | none => c :: stripSSF n cs
      else c :: stripSSF n cs := rfl

theorem stripSSF_of_no_tag : ∀ (fuel : Nat) (l : List Char),
    hasTag l = false → l.length ≤ fuel → stripSSF fuel l = l := by
  intro fuel
  induction fuel with
  | zero =>
    intro l _ h
    have : l = [] := List.eq_nil_of_length_eq_zero (Nat.le_zero.mp h)
    subst this; rfl
  | succ n ih =>
    intro l hnt h
    cases l with
    | nil => rfl
    | cons c cs =>
      have hcs : cs.length ≤ n := by
        simp [List.length_cons] at h; omega
      rw [hasTag_cons] at hnt
      rw [stripSSF_cons_succ]
      by_cases hc : c = '<'
      · rw [if_pos hc] at hnt
        have h2 : hasTag cs = false := by
          cases hb : hasTag cs
          · rfl
          · rw [hb, Bool.or_true] at hnt; exact Bool.noConfusion hnt
        have hss : matchSS cs = none := by
          cases hm : matchSS cs with
          | none => rfl
          | some r =>
            rw [matchSS_isSome_matchTag hm, Bool.true_or] at hnt
            exact Bool.noConfusion hnt
        rw [if_pos hc, hss, ih cs h2 hcs]
      · rw [if_neg hc] at hnt
        rw [if_neg hc, ih cs hnt hcs]

/-! collapseWs: membership, tag preservation and the collapsed normal form. -/

theorem collapseWsF_cons_succ (n : Nat) (c : Char) (cs : List Char) :
    collapseWsF (n + 1) (c :: cs) =
      if isWs c then ' ' :: collapseWsF n (cs.dropWhile isWs)
      else c :: collapseWsF n cs := rfl

theorem mem_collapseWsF {x : Char} : ∀ (fuel : Nat) (l : List Char),
    x ∈ collapseWsF fuel l → x = ' ' ∨ x ∈ l := by
  intro fuel
  induction fuel with
  | zero =>
    intro l h
    cases l with
    | nil => simp [collapseWsF] at h
    | cons c cs => exact Or.inr h
  | succ n ih =>
    intro l h
    cases l with
    | nil => simp [collapseWsF] at h
    | cons c cs =>
      rw [collapseWsF_cons_succ] at h
      by_cases hw : isWs c
      · rw [if_pos hw] at h
        rcases List.mem_cons.mp h with h1 | h1
        · exact Or.inl h1
        · rcases ih _ h1 with h2 | h2
          · exact Or.inl h2
          · exact Or.inr (List.mem_cons_of_mem c
              ((List.dropWhile_sublist isWs).mem h2))
      · rw [if_neg hw] at h
        rcases List.mem_cons.mp h with h1 | h1
        · exact Or.inr (h1 ▸ List.mem_cons_self c cs)
        · rcases ih _ h1 with h2 | h2
          · exact Or.inl h2
          · exact Or.inr (List.mem_cons_of_mem c h2)

theorem hasTag_collapseWsF : ∀ (fuel : Nat) (l : List Char),
    hasTag l = false → l.length ≤ fuel → hasTag (collapseWsF fuel l) = false := by
  intro fuel
  induction fuel with
  | zero =>
    intro l _ h
    have : l = [] := List.eq_nil_of_length_eq_zero (Nat.le_zero.mp h)
    subst this; rfl
  | succ n ih =>
    intro l hnt h
    cases l with
    | nil => rfl
    | cons c cs =>
      have hcs : cs.length ≤ n := by
        simp [List.length_cons] at h; omega
      rw [hasTag_cons] at hnt
      rw [collapseWsF_cons_succ]
      by_cases hw : isWs c
      · rw [if_pos hw]
        have hnt2 : hasTag cs = false := by
          by_cases hc : c = '<'
          · exact absurd (hc ▸ hw) (by decide)
          · rwa [if_neg hc] at hnt
        have hd : hasTag (cs.dropWhile isWs) = false :=
          hasTag_suffix_false (List.dropWhile_suffix isWs) hnt2
        have hlen : (cs.dropWhile isWs).length ≤ n :=
          le_trans (List.Sublist.length_le (List.dropWhile_sublist isWs)) hcs
        rw [hasTag_cons, if_neg (by decide : ¬(' ' : Char) = '<')]
        exact ih _ hd hlen
      · rw [if_neg hw]
        rw [hasTag_cons]
        by_cases hc : c = '<'
        · rw [if_pos hc] at hnt
          rw [if_pos hc]
          have h1 : (matchTag cs).isSome = false := by
            cases hb : (matchTag cs).isSome
            · rfl
            · rw [hb, Bool.true_or] at hnt; exact Bool.noConfusion hnt
          have h2 : hasTag cs = false := by
            cases hb : hasTag cs
            · rfl
            · rw [hb, Bool.or_true] at hnt; exact Bool.noConfusion hnt
          have hmt : matchTag cs = none := by
            cases hm : matchTag cs
            · rfl
            · rw [hm] at h1; simp at h1
          rw [ih cs h2 hcs, Bool.or_false]
          cases cs with
          | nil =>
            cases n with
            | zero => rfl
            | succ m => rfl
          | cons c2 cs2 =>
            by_cases hc2 : c2 = '>'
            · subst hc2
              cases n with
              | zero => simp [List.length_cons] at hcs
              | succ m =>
                rw [collapseWsF_cons_succ,
                  if_neg (by decide : ¬ isWs '>' = true)]
                simp [matchTag]
            · have hag : afterGt cs2 = none := by
                simpa [matchTag, hc2] using hmt
              have hnot : '>' ∉ (c2 :: cs2) := by
                intro hm
                rcases List.mem_cons.mp hm with h1 | h1
                · exact hc2 h1.symm
                · exact (afterGt_eq_none.mp hag) h1
              have hnot2 : '>' ∉ collapseWsF n (c2 :: cs2) := by
                intro hm
                rcases mem_collapseWsF n _ hm with h1 | h1
                · exact absurd h1 (by decide)
                · exact hnot h1
              rw [matchTag_none_of_no_gt hnot2]
              rfl
        · rw [if_neg hc] at hnt
          rw [if_neg hc]
          exact ih cs hnt hcs

theorem isCollapsed_cons (c : Char) (cs : List Char) :
    isCollapsed (c :: cs) =
      ((!isWs c || (decide (c = ' ') && !headIsWs cs)) && isCollapsed cs) := rfl

theorem isCollapsed_tail {c : Char} {cs : List Char}
    (h : isCollapsed (c :: cs) = true) : isCollapsed cs = true := by
  rw [isCollapsed_cons, Bool.and_eq_true] at h
  exact h.2

theorem headIsWs_dropWhile (l : List Char) :
    headIsWs (l.dropWhile isWs) = false := by
  induction l with
  | nil => rfl
  | cons c cs ih =>
    by_cases hw : isWs c
    · rw [List.dropWhile_cons_of_pos hw]
      exact ih
    · rw [List.dropWhile_cons_of_neg hw]
      simpa [headIsWs] using hw

theorem dropWhile_eq_self_of_head {l : List Char} (h : headIsWs l = false) :
    l.dropWhile isWs = l := by
  cases l with
  | nil => rfl
  | cons c cs =>
    have : isWs c = false := h
    rw [List.dropWhile_cons_of_neg (by simp [this])]

theorem headIsWs_collapseWsF {fuel : Nat} {l : List Char}
    (h : headIsWs l = false) : headIsWs (collapseWsF fuel l) = false := by
  cases l with
  | nil =>
    cases fuel with
    | zero => rfl
    | succ n => rfl
  | cons c cs =>
    cases fuel with
    | zero => exact h
    | succ n =>
      have hw : isWs c = false := h
      rw [collapseWsF_cons_succ, if_neg (by simp [hw])]
      exact h

theorem isCollapsed_collapseWsF : ∀ (fuel : Nat) (l : List Char),
    l.length ≤ fuel → isCollapsed (collapseWsF fuel l) = true := by
  intro fuel
  induction fuel with
  | zero =>
    intro l h
    have : l = [] := List.eq_nil_of_length_eq_zero (Nat.le_zero.mp h)
    subst this; rfl
  | succ n ih =>
    intro l h
    cases l with
    | nil => rfl
    | cons c cs =>
      have hcs : cs.length ≤ n := by
        simp [List.length_cons] at h; omega
      rw [collapseWsF_cons_succ]
      by_cases hw : isWs c
      · rw [if_pos hw]
        have hlen : (cs.dropWhile isWs).length ≤ n :=
          le_trans (List.Sublist.length_le (List.dropWhile_sublist isWs)) hcs
        rw [isCollapsed_cons, Bool.and_eq_true]
        refine ⟨?_, ih _ hlen⟩
        rw [headIsWs_collapseWsF (headIsWs_dropWhile cs)]
        rfl
      · rw [if_neg hw]
        rw [isCollapsed_cons, Bool.and_eq_true]
        refine ⟨?_, ih _ hcs⟩
        simp [hw]

theorem isCollapsed_dropWhile {l : List Char} (h : isCollapsed l = true) :
    isCollapsed (l.dropWhile isWs) = true := by
  induction l with
  | nil => rfl
  | cons c cs ih =>
    by_cases hw : isWs c
    · rw [List.dropWhile_cons_of_pos hw]
      exact ih (isCollapsed_tail h)
    · rwa [List.dropWhile_cons_of_neg hw]

theorem isCollapsed_append_left {l1 l2 : List Char}
    (h : isCollapsed (l1 ++ l2) = true) : isCollapsed l1 = true := by
  induction l1 with
  | nil => rfl
  | cons c cs ih =>
    rw [List.cons_append, isCollapsed_cons, Bool.and_eq_true] at h
    rw [isCollapsed_cons, Bool.and_eq_true]
    refine ⟨?_, ih h.2⟩
    rcases Bool.or_eq_true_iff.mp h.1 with h1 | h1
    · rw [h1]; rfl
    · rw [Bool.and_eq_true] at h1
      cases cs with
      | nil => simp [headIsWs, h1.1]
      | cons c2 cs2 =>
        simp only [List.cons_append, headIsWs] at h1 ⊢
        rw [h1.1, h1.2]
        simp

theorem collapseWsF_of_isCollapsed : ∀ (fuel : Nat) (l : List Char),
    isCollapsed l = true → l.length ≤ fuel → collapseWsF fuel l = l := by
  intro fuel
  induction fuel with
  | zero =>
    intro l _ h
    have : l = [] := List.eq_nil_of_length_eq_zero (Nat.le_zero.mp h)
    subst this; rfl
  | succ n ih =>
    intro l hcol h
    cases l with
    | nil => rfl
    | cons c cs =>
      have hcs : cs.length ≤ n := by
        simp [List.length_cons] at h; omega
      rw [isCollapsed_cons, Bool.and_eq_true] at hcol
      rw [collapseWsF_cons_succ]
      by_cases hw : isWs c
      · rw [if_pos hw]
        rcases Bool.or_eq_true_iff.mp hcol.1 with h1 | h1
        · rw [hw] at h1; exact Bool.noConfusion h1
        · rw [Bool.and_eq_true] at h1
          have hc : c = ' ' := of_decide_eq_true h1.1
          have hh : headIsWs cs = false := by
            cases hb : headIsWs cs
            · rfl
            · rw [hb] at h1; exact Bool.noConfusion h1.2
          rw [dropWhile_eq_self_of_head hh, ih cs hcol.2 hcs, hc]
      · rw [if_neg hw, ih cs hcol.2 hcs]

/-! dropEndWs and pyStrip. -/

theorem dropEndWs_cons (c : Char) (cs : List Char) :
    dropEndWs (c :: cs) =
      if isWs c then
        if dropEndWs cs = [] then [] else c :: dropEndWs cs
      else c :: dropEndWs cs := rfl

theorem dropEndWs_append_exists : ∀ l : List Char, ∃ t, l = dropEndWs l ++ t := by
  intro l
  induction l with
  | nil => exact ⟨[], rfl⟩
  | cons c cs ih =>
    obtain ⟨t, ht⟩ := ih
    rw [dropEndWs_cons]
    by_cases hw : isWs c
    · rw [if_pos hw]
      by_cases hz : dropEndWs cs = []
      · rw [if_pos hz]
        exact ⟨c :: cs, rfl⟩
      · rw [if_neg hz]
        exact ⟨t, by rw [List.cons_append, ← ht]⟩
    · rw [if_neg hw]
      exact ⟨t, by rw [List.cons_append, ← ht]⟩

theorem dropEndWs_idem : ∀ l : List Char, dropEndWs (dropEndWs l) = dropEndWs l := by
  intro l
  induction l with
  | nil => rfl
  | cons c cs ih =>
    rw [dropEndWs_cons]
    by_cases hw : isWs c
    · rw [if_pos hw]
      by_cases hz : dropEndWs cs = []
      · rw [if_pos hz]; rfl
      · rw [if_neg hz]
        rw [dropEndWs_cons, if_pos hw, ih]
        rw [if_neg hz]
    · rw [if_neg hw]
      rw [dropEndWs_cons, if_neg hw, ih]

theorem headIsWs_dropEndWs {l : List Char} (h : headIsWs l = false) :
    headIsWs (dropEndWs l) = false := by
  cases l with
  | nil => rfl
  | cons c cs =>
    rw [dropEndWs_cons]
    have hw : isWs c = false := h
    rw [if_neg (by simp [hw])]
    exact h

theorem pyStrip_idem (l : List Char) : pyStrip (pyStrip l) = pyStrip l := by
  unfold pyStrip
  rw [dropWhile_eq_self_of_head
    (headIsWs_dropEndWs (headIsWs_dropWhile l)), dropEndWs_idem]

theorem hasTag_pyStrip {l : List Char} (h : hasTag l = false) :
    hasTag (pyStrip l) = false := by
  unfold pyStrip
  have h1 : hasTag (l.dropWhile isWs) = false :=
    hasTag_suffix_false (List.dropWhile_suffix isWs) h
  obtain ⟨t, ht⟩ := dropEndWs_append_exists (l.dropWhile isWs)
  rw [ht] at h1
  exact (hasTag_false_of_append h1).1

theorem isCollapsed_pyStrip {l : List Char} (h : isCollapsed l = true) :
    isCollapsed (pyStrip l) = true := by
  unfold pyStrip
  have h1 := isCollapsed_dropWhile h
  obtain ⟨t, ht⟩ := dropEndWs_append_exists (l.dropWhile isWs)
  rw [ht] at h1
  exact isCollapsed_append_left h1

/-! Assembly: cleanTextL is idempotent and trimmed. -/

theorem hasTag_cleanTextL (l : List Char) : hasTag (cleanTextL l) = false := by
  unfold cleanTextL
  apply hasTag_pyStrip
  exact hasTag_collapseWsF _ _
    (hasTag_stripTagsF _ _ le_rfl) le_rfl

theorem isCollapsed_cleanTextL (l : List Char) :
    isCollapsed (cleanTextL l) = true := by
  unfold cleanTextL
  exact isCollapsed_pyStrip (isCollapsed_collapseWsF _ _ le_rfl)

theorem pyStrip_cleanTextL (l : List Char) :
    pyStrip (cleanTextL l) = cleanTextL l := by
  unfold cleanTextL
  exact pyStrip_idem _

theorem cleanTextL_idem (l : List Char) :
    cleanTextL (cleanTextL l) = cleanTextL l := by
  have hnt := hasTag_cleanTextL l
  have hcol := isCollapsed_cleanTextL l
  conv =>
    lhs
    rw [cleanTextL]
  rw [show stripSS (cleanTextL l) = cleanTextL l from
    stripSSF_of_no_tag _ _ hnt le_rfl]
  rw [show stripTags (cleanTextL l) = cleanTextL l from
    stripTagsF_of_no_tag _ _ hnt le_rfl]
  rw [show collapseWs (cleanTextL l) = cleanTextL l from
    collapseWsF_of_isCollapsed _ _ hcol le_rfl]
  exact pyStrip_cleanTextL l

theorem string_mk_nil_eq : String.mk ([] : List Char) = "" := rfl

theorem strLen_pos {s : String} (h : ¬ s = "") : 0 < s.length := by
  cases s with
  | mk data =>
    cases data with
    | nil => exact absurd string_mk_nil_eq h
    | cons c cs =>
      show 0 < (c :: cs).length
      simp

/-- C10: the markup-stripping function clean_text is idempotent —
clean_text(clean_text(s)) = clean_text(s) for every string s — and its result
is always trimmed, i.e. equal to its own strip(). -/
theorem c10_clean_text_idempotent_and_trimmed (s : String) :
    cleanText (cleanText s) = cleanText s ∧ pyStripS (cleanText s) = cleanText s := by
  by_cases h : s.data = []
  · have hs : cleanText s = "" := by unfold cleanText; rw [if_pos h]
    rw [hs]
    constructor
    · unfold cleanText
      rw [if_pos (show ("" : String).data = [] from rfl)]
    · rfl
  · have hs : cleanText s = String.mk (cleanTextL s.data) := by
      unfold cleanText; rw [if_neg h]
    constructor
    · rw [hs]
      by_cases h2 : cleanTextL s.data = []
      · unfold cleanText
        rw [if_pos (show (String.mk (cleanTextL s.data)).data = [] from h2), h2]
      · unfold cleanText
        rw [if_neg (show ¬ (String.mk (cleanTextL s.data)).data = [] from h2)]
        show String.mk (cleanTextL (cleanTextL s.data)) = _
        rw [cleanTextL_idem]
    · rw [hs]
      show String.mk (pyStrip (cleanTextL s.data)) = _
      rw [pyStrip_cleanTextL]

/-! ## Claim C9: markup stripping of textual content -/

/-- C9 (amended part): in json_crawler, every emitted record's content equals
clean_text applied to the document's selected raw text — the pure function
that removes script/style blocks, then all remaining tags, then collapses
whitespace runs to single spaces, then trims, in that order. -/
theorem c9_json_content_is_clean_text (docs : List JDoc) (label : String) :
    (emitJsonl docs label).map (fun r => r.content) =
      docs.map (fun d => cleanText (pickText d)) := by
  unfold emitJsonl
  rw [List.map_map]
  rfl

/-- C9 counterexample: in batched_ingest, an entry whose declared type is
textual (text/html) is emitted with the raw markup body unmodified — not with
the markup-stripped text the claim requires: clean_text would turn
"<b>hi</b>" into "hi", but the record's content keeps the tags. -/
theorem c9_counterexample :
    fetchAndProcessEntry entryHtml =
        some ⟨"http://x", "<b>hi</b>", "Tweede Kamer"⟩ ∧
      cleanText "<b>hi</b>" = "hi" ∧ ("<b>hi</b>" : String) ≠ "hi" :=
  ⟨by decide, by decide, by decide⟩

/-! ## Claim C3: the non-empty content invariant -/

/-- C3 (amended part): every record emitted by batched_ingest's
fetch_and_process_entry has non-empty content after trimming. -/
theorem c3_batched_content_nonempty (e : BEntry) (r : Rec)
    (h : fetchAndProcessEntry e = some r) : 0 < (pyStripS r.content).length := by
  obtain ⟨eid, ev, eh, er⟩ := e
  simp only [fetchAndProcessEntry] at h
  by_cases h1 : ev = some "true"
  · rw [if_pos h1] at h
    exact Option.noConfusion h
  · rw [if_neg h1] at h
    cases eh with
    | none => exact Option.noConfusion h
    | some url =>
      simp only [] at h
      by_cases h2 : url = ""
      · rw [if_pos h2] at h
        exact Option.noConfusion h
      · rw [if_neg h2] at h
        cases er with
        | none => exact Option.noConfusion h
        | some resp =>
          simp only [] at h
          by_cases h3 : pyContentType resp.contentTypeHeader = "application/pdf"
          · rw [if_pos h3] at h
            by_cases h4 : pyStripS resp.pdfText = ""
            · rw [if_pos h4] at h
              exact Option.noConfusion h
            · rw [if_neg h4] at h
              rw [← Option.some.inj h]
              exact strLen_pos h4
          · rw [if_neg h3] at h
            by_cases h5 : (strStarts "text/" (pyContentType resp.contentTypeHeader) ||
                decide (pyContentType resp.contentTypeHeader = "application/xml")) = true
            · rw [if_pos h5] at h
              by_cases h6 : pyStripS resp.text = ""
              · rw [if_pos h6] at h
                exact Option.noConfusion h
              · rw [if_neg h6] at h
                rw [← Option.some.inj h]
                exact strLen_pos h6
            · rw [if_neg h5] at h
              exact Option.noConfusion h

/-- Witness for C3's amended theorem at a concrete entry. -/
theorem c3_batched_content_nonempty_witness :
    fetchAndProcessEntry entryPlain =
        some ⟨"http://x", " hi ", "Tweede Kamer"⟩ ∧
      0 < (pyStripS ((⟨"http://x", " hi ", "Tweede Kamer"⟩ : Rec).content)).length :=
  ⟨by decide, c3_batched_content_nonempty entryPlain _ (by decide)⟩

/-- C3 counterexample: json_crawler's emit_jsonl emits a record for a document
with no text fields; its content is empty, so the stream does not satisfy
"every emitted record has non-empty trimmed content". -/
theorem c3_counterexample :
    (emitJsonl [docEmpty] "Tweede Kamer").all
      (fun r => decide (0 < (pyStripS r.content).length)) = false := by
  decide

/-! ## Claim C4: tombstone exclusion -/

/-- C4 (amended part): in batched_ingest, an entry whose content XML carries
tk:verwijderd = "true" is discarded before any record is emitted; in
json_crawler, the deletion filter is the server-side OData $filter
"Verwijderd eq false" carried by every fetch_documents request. -/
theorem c4_tombstone_dropped (e : BEntry) (h : e.verwijderd = some "true") :
    fetchAndProcessEntry e = none ∧
      ∀ skip top, ("$filter", "Verwijderd eq false") ∈ fetchDocumentsParams skip top := by
  constructor
  · unfold fetchAndProcessEntry
    rw [if_pos h]
  · intro skip top
    exact List.mem_append_left _ (List.mem_singleton.mpr rfl)

/-- Witness for C4's amended theorem at a concrete deleted entry. -/
theorem c4_tombstone_dropped_witness : fetchAndProcessEntry entryDeleted = none :=
  (c4_tombstone_dropped entryDeleted rfl).1

/-- C4 counterexample: a raw entry whose metadata marks it deleted
(Verwijderd = true) does appear in json_crawler's record stream — emit_jsonl
performs no deletion check, so the claim that "the classifier discards it
before any record is emitted" fails on json_crawler. -/
theorem c4_counterexample :
    docDel.verwijderd = some true ∧
      emitJsonl [docDel] "Tweede Kamer" = [⟨"None", "x", "Tweede Kamer"⟩] :=
  ⟨rfl, by decide⟩

/-! ## Claim C2: idempotent republish -/

theorem chunkNamesF_nil (shardSize fuel i : Nat) :
    chunkNamesF shardSize fuel i [] = [] := by
  cases fuel with
  | zero => rfl
  | succ n => rfl

theorem pushLoopF_covers (shardSize : Nat) (repo : List String)
    (ok : String → Bool) (hok : ∀ nm, ok nm = true) :
    ∀ (fuel i : Nat) (lines : List Rec) (nm : String),
      nm ∈ chunkNamesF shardSize fuel i lines →
      nm ∈ repo ∨
        nm ∈ (pushLoopF shardSize repo ok fuel i lines).uploaded := by
  intro fuel
  induction fuel with
  | zero =>
    intro i lines nm hm
    cases lines with
    | nil => simp [chunkNamesF] at hm
    | cons x xs => simp [chunkNamesF] at hm
  | succ n ih =>
    intro i lines nm hm
    cases lines with
    | nil => simp [chunkNamesF] at hm
    | cons x xs =>
      simp only [chunkNamesF] at hm
      simp only [pushLoopF]
      by_cases hmem : shardName i (i + ((x :: xs).take shardSize).length) ∈ repo
      · rw [if_pos hmem]
        rcases List.mem_cons.mp hm with h1 | h1
        · exact Or.inl (h1 ▸ hmem)
        · exact ih _ _ nm h1
      · rw [if_neg hmem]
        rw [if_pos (hok (shardName i (i + ((x :: xs).take shardSize).length)))]
        rcases List.mem_cons.mp hm with h1 | h1
        · exact Or.inr (h1 ▸ List.mem_cons_self _ _)
        · rcases ih _ _ nm h1 with h2 | h2
          · exact Or.inl h2
          · exact Or.inr (List.mem_cons_of_mem _ h2)

theorem pushLoopF_all_skipped (shardSize : Nat) :
    ∀ (fuel i : Nat) (lines : List Rec) (repo2 : List String) (ok : String → Bool),
      (∀ nm ∈ chunkNamesF shardSize fuel i lines, nm ∈ repo2) →
      pushLoopF shardSize repo2 ok fuel i lines = ⟨[], [], 0, false⟩ := by
  intro fuel
  induction fuel with
  | zero =>
    intro i lines repo2 ok _
    cases lines with
    | nil => rfl
    | cons x xs => rfl
  | succ n ih =>
    intro i lines repo2 ok hcov
    cases lines with
    | nil => rfl
    | cons x xs =>
      have hmem : shardName i (i + ((x :: xs).take shardSize).length) ∈ repo2 := by
        apply hcov
        simp only [chunkNamesF]
        exact List.mem_cons_self _ _
      simp only [pushLoopF]
      rw [if_pos hmem]
      apply ih
      intro nm hnm
      apply hcov
      simp only [chunkNamesF]
      exact List.mem_cons_of_mem _ hnm

/-- C2 (amended part): republishing the same lines through json_crawler's
push_to_hf, against a store that after the first (fully successful) publish
lists the resulting shard names, uploads zero new files: every slice's
deterministic offset-range name is already listed, so every slice is skipped,
no upload call is made and the uploaded count is 0. -/
theorem c2_push_to_hf_idempotent (shardSize : Nat) (repo : List String)
    (lines : List Rec) (ok2 : String → Bool) :
    (pushToHf shardSize (repo ++ (pushToHf shardSize repo (fun _ => true) lines).uploaded)
        ok2 lines).uploaded = [] ∧
      (pushToHf shardSize (repo ++ (pushToHf shardSize repo (fun _ => true) lines).uploaded)
          ok2 lines).n = 0 ∧
      (pushToHf shardSize (repo ++ (pushToHf shardSize repo (fun _ => true) lines).uploaded)
          ok2 lines).attempted = [] := by
  have hskip : pushToHf shardSize
      (repo ++ (pushToHf shardSize repo (fun _ => true) lines).uploaded) ok2 lines =
      ⟨[], [], 0, false⟩ := by
    apply pushLoopF_all_skipped
    intro nm hm
    rcases pushLoopF_covers shardSize repo (fun _ => true) (fun _ => rfl)
        lines.length 0 lines nm hm with h | h
    · exact List.mem_append_left _ h
    · exact List.mem_append_right _ h
  rw [hskip]
  exact ⟨rfl, rfl, rfl⟩

/-- C2 counterexample: batched_ingest's push_batch_to_hf names its file by
batch number only and consults no repository listing, so republishing the same
batch uploads the file again — one new file, not zero — even though the store
already lists data/batch_1.parquet after the first publish (the call takes no
listing at all, so the store's contents cannot suppress the upload). -/
theorem c2_counterexample :
    (pushBatchToHf [recA] 1 (fun _ => true)).uploaded = ["data/batch_1.parquet"] ∧
      (pushBatchToHf [recA] 1 (fun _ => true)).uploaded.length ≠ 0 :=
  ⟨by decide, by decide⟩

/-! ## Claim C8: slice-failure isolation in a publish call -/

/-- C8 (amended part): batched_ingest's push_batch_to_hf wraps its single
upload in try/except/finally — an upload failure never escapes the call and
the local parquet artifact is always removed. -/
theorem c8_push_batch_failure_contained (docs : List Rec) (bn : Nat)
    (ok : String → Bool) :
    (pushBatchToHf docs bn ok).err = false ∧
      (pushBatchToHf docs bn ok).cleaned = true := by
  by_cases h : docs = []
  · simp [pushBatchToHf, h]
  · by_cases h2 : ok ("data/batch_" ++ toString bn ++ ".parquet") = true
    · simp [pushBatchToHf, h, h2]
    · simp [pushBatchToHf, h, h2]

/-- C8 counterexample: json_crawler's push_to_hf does not catch upload errors:
with two slices and the first upload failing, the exception escapes the call
and the second slice — whose name is a chunk of the batch and is not in the
repository — is never attempted, contradicting "every later slice is still
attempted". -/
theorem c8_counterexample :
    (pushToHf 1 [] (fun nm => nm != "shards/shard_0_1.jsonl") [recA, recB]).err = true ∧
      (pushToHf 1 [] (fun nm => nm != "shards/shard_0_1.jsonl") [recA, recB]).attempted =
        ["shards/shard_0_1.jsonl"] ∧
      "shards/shard_1_2.jsonl" ∈ chunkNames 1 [recA, recB] ∧
      "shards/shard_1_2.jsonl" ∉
        (pushToHf 1 [] (fun nm => nm != "shards/shard_0_1.jsonl") [recA, recB]).attempted :=
  ⟨by decide, by decide, by decide, by decide⟩

/-! ## Trace-scan step and append lemmas -/

@[simp] theorem savesOKAux_nil (col pus : List Rec) : savesOKAux col pus [] = true := rfl

@[simp] theorem savesOKAux_fetchTry (col pus : List Rec) (a : Nat) (ok : Bool)
    (tl : List Ev) : savesOKAux col pus (Ev.fetchTry a ok :: tl) = savesOKAux col pus tl := rfl

@[simp] theorem savesOKAux_sleep (col pus : List Rec) (n : Nat) (tl : List Ev) :
    savesOKAux col pus (Ev.sleep n :: tl) = savesOKAux col pus tl := rfl

@[simp] theorem savesOKAux_collect (col pus rs : List Rec) (tl : List Ev) :
    savesOKAux col pus (Ev.collect rs :: tl) = savesOKAux (col ++ rs) pus tl := rfl

@[simp] theorem savesOKAux_push (col pus rs : List Rec) (tl : List Ev) :
    savesOKAux col pus (Ev.push rs :: tl) = savesOKAux col (pus ++ rs) tl := rfl

@[simp] theorem savesOKAux_save (col pus : List Rec) (v : Int) (tl : List Ev) :
    savesOKAux col pus (Ev.save v :: tl) =
      (col.all (fun r => decide (r ∈ pus)) && savesOKAux col pus tl) := rfl

@[simp] theorem colAfter_nil (col : List Rec) : colAfter col [] = col := rfl

@[simp] theorem colAfter_fetchTry (col : List Rec) (a : Nat) (ok : Bool) (tl : List Ev) :
    colAfter col (Ev.fetchTry a ok :: tl) = colAfter col tl := rfl

@[simp] theorem colAfter_sleep (col : List Rec) (n : Nat) (tl : List Ev) :
    colAfter col (Ev.sleep n :: tl) = colAfter col tl := rfl

@[simp] theorem colAfter_collect (col rs : List Rec) (tl : List Ev) :
    colAfter col (Ev.collect rs :: tl) = colAfter (col ++ rs) tl := rfl

@[simp] theorem colAfter_push (col rs : List Rec) (tl : List Ev) :
    colAfter col (Ev.push rs :: tl) = colAfter col tl := rfl

@[simp] theorem colAfter_save (col : List Rec) (v : Int) (tl : List Ev) :
    colAfter col (Ev.save v :: tl) = colAfter col tl := rfl

@[simp] theorem pusAfter_nil (pus : List Rec) : pusAfter pus [] = pus := rfl

@[simp] theorem pusAfter_fetchTry (pus : List Rec) (a : Nat) (ok : Bool) (tl : List Ev) :
    pusAfter pus (Ev.fetchTry a ok :: tl) = pusAfter pus tl := rfl

@[simp] theorem pusAfter_sleep (pus : List Rec) (n : Nat) (tl : List Ev) :
    pusAfter pus (Ev.sleep n :: tl) = pusAfter pus tl := rfl

@[simp] theorem pusAfter_collect (pus rs : List Rec) (tl : List Ev) :
    pusAfter pus (Ev.collect rs :: tl) = pusAfter pus tl := rfl

@[simp] theorem pusAfter_push (pus rs : List Rec) (tl : List Ev) :
    pusAfter pus (Ev.push rs :: tl) = pusAfter (pus ++ rs) tl := rfl

@[simp] theorem pusAfter_save (pus : List Rec) (v : Int) (tl : List Ev) :
    pusAfter pus (Ev.save v :: tl) = pusAfter pus tl := rfl

theorem colAfter_append (col : List Rec) (a b : List Ev) :
    colAfter col (a ++ b) = colAfter (colAfter col a) b := by
  induction a generalizing col with
  | nil => rfl
  | cons e tl ih =>
    cases e with
    | fetchTry at1 ok => exact ih col
    | sleep n => exact ih col
    | collect rs => exact ih (col ++ rs)
    | save v => exact ih col
    | push rs => exact ih col

theorem pusAfter_append (pus : List Rec) (a b : List Ev) :
    pusAfter pus (a ++ b) = pusAfter (pusAfter pus a) b := by
  induction a generalizing pus with
  | nil => rfl
  | cons e tl ih =>
    cases e with
    | fetchTry at1 ok => exact ih pus
    | sleep n => exact ih pus
    | collect rs => exact ih pus
    | save v => exact ih pus
    | push rs => exact ih (pus ++ rs)

theorem savesOKAux_append (col pus : List Rec) (a b : List Ev) :
    savesOKAux col pus (a ++ b) =
      (savesOKAux col pus a && savesOKAux (colAfter col a) (pusAfter pus a) b) := by
  induction a generalizing col pus with
  | nil => simp
  | cons e tl ih =>
    cases e with
    | fetchTry at1 ok => exact ih col pus
    | sleep n => exact ih col pus
    | collect rs => exact ih (col ++ rs) pus
    | save v =>
      show (col.all _ && savesOKAux col pus (tl ++ b)) = _
      rw [ih col pus, ← Bool.and_assoc]
      rfl
    | push rs => exact ih col (pus ++ rs)

theorem all_mem_self (l : List Rec) : l.all (fun r => decide (r ∈ l)) = true := by
  rw [List.all_eq_true]
  intro x hx
  simpa using hx

/-- Loop invariant of batched_ingest for claim C1: if the events so far pass
the saves-after-publish scan and the records collected so far are exactly the
published ones followed by the current unpublished batch, the same holds after
the rest of the loop. -/
theorem bLoop_savesOK (cfg : BCfg)
    (req : Option Int → Option (List BEntry × Option Int)) :
    ∀ (fuel : Nat) (tok : Option Int) (total : Nat) (batch : List Rec) (bn : Nat)
      (savedTok : Int) (events : List Ev),
      savesOKAux [] [] events = true →
      colAfter [] events = pusAfter [] events ++ batch →
      savesOKAux [] [] (bLoop cfg req fuel tok total batch bn savedTok events).events = true ∧
        colAfter [] (bLoop cfg req fuel tok total batch bn savedTok events).events =
          pusAfter [] (bLoop cfg req fuel tok total batch bn savedTok events).events ++
            (bLoop cfg req fuel tok total batch bn savedTok events).batch := by
  intro fuel
  induction fuel with
  | zero =>
    intro tok total batch bn savedTok events hOK hrel
    exact ⟨hOK, hrel⟩
  | succ n ih =>
    intro tok total batch bn savedTok events hOK hrel
    by_cases hlt : total < cfg.limit
    · cases hreq : req (effTok tok) with
      | none =>
        simp only [bLoop, if_pos hlt, fetchApiPage, hreq]
        rw [if_pos (⟨trivial, trivial⟩ : True ∧ True)]
        constructor
        · rw [savesOKAux_append, hOK]
          rfl
        · rw [colAfter_append, pusAfter_append]
          simpa using hrel
      | some pr =>
        simp only [bLoop, if_pos hlt, fetchApiPage, hreq]
        by_cases hdn : pr.1.filterMap fetchAndProcessEntry = [] ∧ pr.2 = none
        · rw [if_pos hdn]
          constructor
          · rw [savesOKAux_append, hOK]
            rfl
          · rw [colAfter_append, pusAfter_append]
            simpa using hrel
        · rw [if_neg hdn]
          by_cases hth : cfg.uploadBatchSize ≤
              (batch ++ (pr.1.filterMap fetchAndProcessEntry).take (cfg.limit - total)).length
          · rw [if_pos hth]
            cases tok with
            | some t =>
              cases hnext : pr.2 with
              | none =>
                constructor
                · simp [savesOKAux_append, colAfter_append, pusAfter_append, hOK,
                    hrel, all_mem_self, List.append_assoc]
                  exact ⟨fun x hx => Or.inl hx, fun x hx => Or.inr (Or.inl hx),
                    fun x hx => Or.inr (Or.inr hx)⟩
                · simp [colAfter_append, pusAfter_append, hrel, List.append_assoc]
              | some t2 =>
                apply ih
                · simp [savesOKAux_append, colAfter_append, pusAfter_append, hOK,
                    hrel, all_mem_self, List.append_assoc]
                  exact ⟨fun x hx => Or.inl hx, fun x hx => Or.inr (Or.inl hx),
                    fun x hx => Or.inr (Or.inr hx)⟩
                · simp [colAfter_append, pusAfter_append, hrel, List.append_assoc]
            | none =>
              cases hnext : pr.2 with
              | none =>
                constructor
                · simp [savesOKAux_append, colAfter_append, pusAfter_append, hOK]
                · simp [colAfter_append, pusAfter_append, hrel, List.append_assoc]
              | some t2 =>
                apply ih
                · simp [savesOKAux_append, colAfter_append, pusAfter_append, hOK]
                · simp [colAfter_append, pusAfter_append, hrel, List.append_assoc]
          · rw [if_neg hth]
            cases hnext : pr.2 with
            | none =>
              constructor
              · simp [savesOKAux_append, colAfter_append, pusAfter_append, hOK]
              · simp [colAfter_append, pusAfter_append, hrel, List.append_assoc]
            | some t2 =>
              apply ih
              · simp [savesOKAux_append, colAfter_append, pusAfter_append, hOK]
              · simp [colAfter_append, pusAfter_append, hrel, List.append_assoc]
    · simp only [bLoop, if_neg hlt]
      exact ⟨hOK, hrel⟩

/-- C1 (amended part): in every batched_ingest run, every cursor save
(save_skiptoken) is preceded by publish calls that together cover all records
collected up to that point — the cursor is never persisted before the covering
publish call has been made. -/
theorem c1_batched_save_after_publish (cfg : BCfg)
    (req : Option Int → Option (List BEntry × Option Int)) (tok0 : Int) (fuel : Nat) :
    savesAfterPublishB (bMain cfg req tok0 fuel).events = true := by
  obtain ⟨hOK, hrel⟩ := bLoop_savesOK cfg req fuel (some tok0) 0 [] 1 tok0 [] rfl rfl
  show savesOKAux [] [] (bMain cfg req tok0 fuel).events = true
  simp only [bMain]
  by_cases hb : (bLoop cfg req fuel (some tok0) 0 [] 1 tok0 []).batch = []
  · rw [if_pos hb]
    cases ht : (bLoop cfg req fuel (some tok0) 0 [] 1 tok0 []).tok with
    | none => exact hOK
    | some t =>
      show savesOKAux [] []
        ((bLoop cfg req fuel (some tok0) 0 [] 1 tok0 []).events ++ [Ev.save t]) = true
      rw [savesOKAux_append, hOK, Bool.true_and, savesOKAux_save, savesOKAux_nil,
        Bool.and_true, hrel, hb, List.append_nil, all_mem_self]
  · rw [if_neg hb]
    cases ht : (bLoop cfg req fuel (some tok0) 0 [] 1 tok0 []).tok with
    | none =>
      show savesOKAux [] []
        ((bLoop cfg req fuel (some tok0) 0 [] 1 tok0 []).events ++
          [Ev.push (bLoop cfg req fuel (some tok0) 0 [] 1 tok0 []).batch]) = true
      rw [savesOKAux_append, hOK]
      rfl
    | some t =>
      show savesOKAux [] []
        ((bLoop cfg req fuel (some tok0) 0 [] 1 tok0 []).events ++
          [Ev.push (bLoop cfg req fuel (some tok0) 0 [] 1 tok0 []).batch] ++
            [Ev.save t]) = true
      simp [savesOKAux_append, colAfter_append, pusAfter_append, hOK, hrel,
        all_mem_self, List.append_assoc]
      try exact ⟨fun x hx => Or.inl hx, fun x hx => Or.inr hx⟩

/-- C1 counterexample: a json_crawler run fetching one page saves the advanced
cursor (save_state with skip = 1) immediately after appending the page's
records to the local file, while the only upload (push_to_hf) happens at the
end of the run — the trace fails the saves-after-publish scan. -/
theorem c1_counterexample :
    savesAfterPublishB
      (jcMain ⟨5, 10, "Tweede Kamer", true⟩ (fun _ _ => some [docT]) 0 []).events =
      false := by
  decide

/-! ## Claim C6: the total-document budget -/

@[simp] theorem collectedCount_nil : collectedCount [] = 0 := rfl

@[simp] theorem collectedCount_fetchTry (a : Nat) (ok : Bool) (tl : List Ev) :
    collectedCount (Ev.fetchTry a ok :: tl) = collectedCount tl := rfl

@[simp] theorem collectedCount_sleep (n : Nat) (tl : List Ev) :
    collectedCount (Ev.sleep n :: tl) = collectedCount tl := rfl

@[simp] theorem collectedCount_collect (rs : List Rec) (tl : List Ev) :
    collectedCount (Ev.collect rs :: tl) = rs.length + collectedCount tl := rfl

@[simp] theorem collectedCount_push (rs : List Rec) (tl : List Ev) :
    collectedCount (Ev.push rs :: tl) = collectedCount tl := rfl

@[simp] theorem collectedCount_save (v : Int) (tl : List Ev) :
    collectedCount (Ev.save v :: tl) = collectedCount tl := rfl

theorem collectedCount_append (a b : List Ev) :
    collectedCount (a ++ b) = collectedCount a + collectedCount b := by
  induction a with
  | nil => simp
  | cons e tl ih =>
    cases e with
    | fetchTry a1 ok => simpa using ih
    | sleep n => simpa using ih
    | collect rs => simp [ih, Nat.add_assoc]
    | save v => simpa using ih
    | push rs => simpa using ih

/-- Loop invariant of batched_ingest for claim C6: the collected-record count
of the trace equals the total counter and stays within the budget. -/
theorem bLoop_budget (cfg : BCfg)
    (req : Option Int → Option (List BEntry × Option Int)) :
    ∀ (fuel : Nat) (tok : Option Int) (total : Nat) (batch : List Rec) (bn : Nat)
      (savedTok : Int) (events : List Ev),
      collectedCount events = total → total ≤ cfg.limit →
      collectedCount (bLoop cfg req fuel tok total batch bn savedTok events).events =
          (bLoop cfg req fuel tok total batch bn savedTok events).total ∧
        (bLoop cfg req fuel tok total batch bn savedTok events).total ≤ cfg.limit := by
  intro fuel
  induction fuel with
  | zero =>
    intro tok total batch bn savedTok events hc hle
    exact ⟨hc, hle⟩
  | succ n ih =>
    intro tok total batch bn savedTok events hc hle
    by_cases hlt : total < cfg.limit
    · cases hreq : req (effTok tok) with
      | none =>
        simp only [bLoop, if_pos hlt, fetchApiPage, hreq]
        rw [if_pos (⟨trivial, trivial⟩ : True ∧ True)]
        exact ⟨by simp [collectedCount_append, hc], hle⟩
      | some pr =>
        simp only [bLoop, if_pos hlt, fetchApiPage, hreq]
        by_cases hdn : pr.1.filterMap fetchAndProcessEntry = [] ∧ pr.2 = none
        · rw [if_pos hdn]
          exact ⟨by simp [collectedCount_append, hc], hle⟩
        · rw [if_neg hdn]
          have htk : ((pr.1.filterMap fetchAndProcessEntry).take (cfg.limit - total)).length
              ≤ cfg.limit - total := by
            rw [List.length_take]
            omega
          by_cases hth : cfg.uploadBatchSize ≤
              (batch ++ (pr.1.filterMap fetchAndProcessEntry).take (cfg.limit - total)).length
          · rw [if_pos hth]
            cases tok with
            | some t =>
              cases hnext : pr.2 with
              | none =>
                refine ⟨by simp [collectedCount_append, hc], by simp only []; omega⟩
              | some t2 =>
                apply ih
                · simp [collectedCount_append, hc]
                · omega
            | none =>
              cases hnext : pr.2 with
              | none =>
                refine ⟨by simp [collectedCount_append, hc], by simp only []; omega⟩
              | some t2 =>
                apply ih
                · simp [collectedCount_append, hc]
                · omega
          · rw [if_neg hth]
            cases hnext : pr.2 with
            | none =>
              refine ⟨by simp [collectedCount_append, hc], by simp only []; omega⟩
            | some t2 =>
              apply ih
              · simp [collectedCount_append, hc]
              · omega
    · simp only [bLoop, if_neg hlt]
      exact ⟨hc, hle⟩

/-- C6 (amended part): a batched_ingest run never collects more than the
configured TOTAL_DOCUMENT_LIMIT records: the final page is truncated to the
remaining budget and the excess entries are dropped. -/
theorem c6_batched_budget (cfg : BCfg)
    (req : Option Int → Option (List BEntry × Option Int)) (tok0 : Int) (fuel : Nat) :
    collectedCount (bMain cfg req tok0 fuel).events ≤ cfg.limit := by
  obtain ⟨hc, hle⟩ := bLoop_budget cfg req fuel (some tok0) 0 [] 1 tok0 [] rfl (Nat.zero_le _)
  simp only [bMain]
  by_cases hb : (bLoop cfg req fuel (some tok0) 0 [] 1 tok0 []).batch = []
  · rw [if_pos hb]
    cases ht : (bLoop cfg req fuel (some tok0) 0 [] 1 tok0 []).tok with
    | none => exact hc ▸ hle
    | some t =>
      show collectedCount ((bLoop cfg req fuel (some tok0) 0 [] 1 tok0 []).events ++
        [Ev.save t]) ≤ cfg.limit
      simpa [collectedCount_append, hc] using hle
  · rw [if_neg hb]
    cases ht : (bLoop cfg req fuel (some tok0) 0 [] 1 tok0 []).tok with
    | none =>
      show collectedCount ((bLoop cfg req fuel (some tok0) 0 [] 1 tok0 []).events ++
        [Ev.push (bLoop cfg req fuel (some tok0) 0 [] 1 tok0 []).batch]) ≤ cfg.limit
      simpa [collectedCount_append, hc] using hle
    | some t =>
      show collectedCount ((bLoop cfg req fuel (some tok0) 0 [] 1 tok0 []).events ++
        [Ev.push (bLoop cfg req fuel (some tok0) 0 [] 1 tok0 []).batch] ++
          [Ev.save t]) ≤ cfg.limit
      simpa [collectedCount_append, hc] using hle

/-- C6 counterexample: json_crawler checks the budget only before fetching and
appends whole pages: with MAX_ENTRIES = 1 and a page of 2 documents, the run
collects 2 records, exceeding the budget. -/
theorem c6_counterexample :
    ¬ (collectedCount (jcMain ⟨2, 1, "Tweede Kamer", false⟩
        (fun _ _ => some [docT, docT]) 0 []).events ≤ 1) := by
  decide

/-! ## Claim C7: the batch threshold -/

@[simp] theorem thrOKAux_nil (T n : Nat) : thrOKAux T n [] = true := rfl

@[simp] theorem thrOKAux_fetchTry_zero (T n : Nat) (ok : Bool) (tl : List Ev) :
    thrOKAux T n (Ev.fetchTry 0 ok :: tl) = (decide (n < T) && thrOKAux T n tl) := rfl

@[simp] theorem thrOKAux_fetchTry_succ (T n a : Nat) (ok : Bool) (tl : List Ev) :
    thrOKAux T n (Ev.fetchTry (a + 1) ok :: tl) = thrOKAux T n tl := rfl

@[simp] theorem thrOKAux_sleep (T n m : Nat) (tl : List Ev) :
    thrOKAux T n (Ev.sleep m :: tl) = thrOKAux T n tl := rfl

@[simp] theorem thrOKAux_collect (T n : Nat) (rs : List Rec) (tl : List Ev) :
    thrOKAux T n (Ev.collect rs :: tl) = thrOKAux T (n + rs.length) tl := rfl

@[simp] theorem thrOKAux_push (T n : Nat) (rs : List Rec) (tl : List Ev) :
    thrOKAux T n (Ev.push rs :: tl) = thrOKAux T (n - rs.length) tl := rfl

@[simp] theorem thrOKAux_save (T n : Nat) (v : Int) (tl : List Ev) :
    thrOKAux T n (Ev.save v :: tl) = thrOKAux T n tl := rfl

@[simp] theorem unpubAfter_nil (n : Nat) : unpubAfter n [] = n := rfl

@[simp] theorem unpubAfter_fetchTry (n a : Nat) (ok : Bool) (tl : List Ev) :
    unpubAfter n (Ev.fetchTry a ok :: tl) = unpubAfter n tl := rfl

@[simp] theorem unpubAfter_sleep (n m : Nat) (tl : List Ev) :
    unpubAfter n (Ev.sleep m :: tl) = unpubAfter n tl := rfl

@[simp] theorem unpubAfter_collect (n : Nat) (rs : List Rec) (tl : List Ev) :
    unpubAfter n (Ev.collect rs :: tl) = unpubAfter (n + rs.length) tl := rfl

@[simp] theorem unpubAfter_push (n : Nat) (rs : List Rec) (tl : List Ev) :
    unpubAfter n (Ev.push rs :: tl) = unpubAfter (n - rs.length) tl := rfl

@[simp] theorem unpubAfter_save (n : Nat) (v : Int) (tl : List Ev) :
    unpubAfter n (Ev.save v :: tl) = unpubAfter n tl := rfl

theorem unpubAfter_append (n : Nat) (a b : List Ev) :
    unpubAfter n (a ++ b) = unpubAfter (unpubAfter n a) b := by
  induction a generalizing n with
  | nil => rfl
  | cons e tl ih =>
    cases e with
    | fetchTry a1 ok => exact ih n
    | sleep m => exact ih n
    | collect rs => exact ih (n + rs.length)
    | save v => exact ih n
    | push rs => exact ih (n - rs.length)

theorem thrOKAux_append (T n : Nat) (a b : List Ev) :
    thrOKAux T n (a ++ b) =
      (thrOKAux T n a && thrOKAux T (unpubAfter n a) b) := by
  induction a generalizing n with
  | nil => simp
  | cons e tl ih =>
    cases e with
    | fetchTry a1 ok =>
      cases a1 with
      | zero =>
        show (decide (n < T) && thrOKAux T n (tl ++ b)) = _
        rw [ih n, ← Bool.and_assoc]
        rfl
      | succ m => exact ih n
    | sleep m => exact ih n
    | collect rs => exact ih (n + rs.length)
    | save v => exact ih n
    | push rs => exact ih (n - rs.length)

/-- Loop invariant of batched_ingest for claim C7: if at most T-1 records are
unpublished at the start of a cycle, no fetch cycle of the rest of the run
starts with T or more unpublished records (a batch reaching the threshold is
pushed within its cycle). -/
theorem bLoop_threshold (cfg : BCfg)
    (req : Option Int → Option (List BEntry × Option Int))
    (hT : 0 < cfg.uploadBatchSize) :
    ∀ (fuel : Nat) (tok : Option Int) (total : Nat) (batch : List Rec) (bn : Nat)
      (savedTok : Int) (events : List Ev),
      thrOKAux cfg.uploadBatchSize 0 events = true →
      unpubAfter 0 events = batch.length →
      batch.length < cfg.uploadBatchSize →
      thrOKAux cfg.uploadBatchSize 0
        (bLoop cfg req fuel tok total batch bn savedTok events).events = true := by
  intro fuel
  induction fuel with
  | zero =>
    intro tok total batch bn savedTok events hthr hunp hlt'
    exact hthr
  | succ n ih =>
    intro tok total batch bn savedTok events hthr hunp hlt'
    by_cases hlt : total < cfg.limit
    · cases hreq : req (effTok tok) with
      | none =>
        simp only [bLoop, if_pos hlt, fetchApiPage, hreq]
        rw [if_pos (⟨trivial, trivial⟩ : True ∧ True)]
        simp [thrOKAux_append, hthr, hunp, hlt']
      | some pr =>
        simp only [bLoop, if_pos hlt, fetchApiPage, hreq]
        by_cases hdn : pr.1.filterMap fetchAndProcessEntry = [] ∧ pr.2 = none
        · rw [if_pos hdn]
          simp [thrOKAux_append, hthr, hunp, hlt']
        · rw [if_neg hdn]
          by_cases hth : cfg.uploadBatchSize ≤
              (batch ++ (pr.1.filterMap fetchAndProcessEntry).take (cfg.limit - total)).length
          · rw [if_pos hth]
            cases tok with
            | some t =>
              cases hnext : pr.2 with
              | none =>
                simp [thrOKAux_append, unpubAfter_append, hthr, hunp, hlt',
                  List.length_append]
              | some t2 =>
                apply ih
                · simp [thrOKAux_append, unpubAfter_append, hthr, hunp, hlt',
                    List.length_append]
                · simp [unpubAfter_append, hunp, List.length_append]
                · exact hT
            | none =>
              cases hnext : pr.2 with
              | none =>
                simp [thrOKAux_append, unpubAfter_append, hthr, hunp, hlt',
                  List.length_append]
              | some t2 =>
                apply ih
                · simp [thrOKAux_append, unpubAfter_append, hthr, hunp, hlt',
                    List.length_append]
                · simp [unpubAfter_append, hunp, List.length_append]
                · exact hT
          · rw [if_neg hth]
            cases hnext : pr.2 with
            | none =>
              simp [thrOKAux_append, unpubAfter_append, hthr, hunp, hlt']
            | some t2 =>
              apply ih
              · simp [thrOKAux_append, unpubAfter_append, hthr, hunp, hlt']
              · simp [unpubAfter_append, hunp, List.length_append]
              · omega
    · simp only [bLoop, if_neg hlt]
      exact hthr

/-- C7 (amended part): in batched_ingest with threshold T = UPLOAD_BATCH_SIZE
positive, the loop never enters a fetch cycle holding T or more unpublished
records — a batch reaching the threshold is published before the next fetch. -/
theorem c7_batched_threshold (cfg : BCfg)
    (req : Option Int → Option (List BEntry × Option Int)) (tok0 : Int) (fuel : Nat)
    (hT : 0 < cfg.uploadBatchSize) :
    thresholdOKB cfg.uploadBatchSize (bMain cfg req tok0 fuel).events = true := by
  have hthr := bLoop_threshold cfg req hT fuel (some tok0) 0 [] 1 tok0 [] rfl rfl hT
  show thrOKAux cfg.uploadBatchSize 0 (bMain cfg req tok0 fuel).events = true
  simp only [bMain]
  by_cases hb : (bLoop cfg req fuel (some tok0) 0 [] 1 tok0 []).batch = []
  · rw [if_pos hb]
    cases ht : (bLoop cfg req fuel (some tok0) 0 [] 1 tok0 []).tok with
    | none => exact hthr
    | some t =>
      show thrOKAux cfg.uploadBatchSize 0
        ((bLoop cfg req fuel (some tok0) 0 [] 1 tok0 []).events ++ [Ev.save t]) = true
      simp [thrOKAux_append, hthr]
  · rw [if_neg hb]
    cases ht : (bLoop cfg req fuel (some tok0) 0 [] 1 tok0 []).tok with
    | none =>
      show thrOKAux cfg.uploadBatchSize 0
        ((bLoop cfg req fuel (some tok0) 0 [] 1 tok0 []).events ++
          [Ev.push (bLoop cfg req fuel (some tok0) 0 [] 1 tok0 []).batch]) = true
      simp [thrOKAux_append, hthr]
    | some t =>
      show thrOKAux cfg.uploadBatchSize 0
        ((bLoop cfg req fuel (some tok0) 0 [] 1 tok0 []).events ++
          [Ev.push (bLoop cfg req fuel (some tok0) 0 [] 1 tok0 []).batch] ++
            [Ev.save t]) = true
      simp [thrOKAux_append, hthr]

/-- Witness for C7's amended theorem at a concrete configuration. -/
theorem c7_batched_threshold_witness :
    0 < (2 : Nat) ∧
      thresholdOKB 2 (bMain ⟨5, 2⟩ (fun _ => none) 1 1).events = true :=
  ⟨by decide, c7_batched_threshold ⟨5, 2⟩ (fun _ => none) 1 1 (by decide)⟩

/-- C7 counterexample: json_crawler has no publish threshold — records
accumulate unpublished across fetch cycles and are published only at the end
of the run.  With threshold T = 1, a run whose first page yields one record
enters its second fetch cycle holding 1 ≥ T unpublished records with no
publish call before it. -/
theorem c7_counterexample :
    thresholdOKB 1 (jcMain ⟨1, 10, "Tweede Kamer", false⟩
      (fun skip _ => if skip = 0 then some [docT] else some []) 0 []).events = false := by
  decide

/-! ## Claim C5: retry policy and abort behavior -/

/-- C5 (amended part): in json_crawler, when every fetch attempt at the
current cursor fails, the page is attempted exactly 3 times with a sleep(3)
after each failure, the loop aborts, no save_state call is made, and the
persisted cursor equals its pre-run value. -/
theorem c5_json_retry_behavior (cfg : JCfg) (oracle : Nat → Nat → Option (List JDoc))
    (skip0 : Nat) (initFile : List Rec)
    (hmax : 0 < cfg.maxEntries) (hfail : ∀ a, oracle skip0 a = none) :
    countFetchTry (jcMain cfg oracle skip0 initFile).events = 3 ∧
      countSleep (jcMain cfg oracle skip0 initFile).events = 3 ∧
      countSave (jcMain cfg oracle skip0 initFile).events = 0 ∧
      (jcMain cfg oracle skip0 initFile).savedSkip = skip0 ∧
      (jcMain cfg oracle skip0 initFile).aborted = true := by
  obtain ⟨m, hm⟩ : ∃ m, cfg.maxEntries = m + 1 := ⟨cfg.maxEntries - 1, by omega⟩
  have hloop : jcLoop cfg oracle cfg.maxEntries skip0 0 initFile skip0 [] =
      ⟨[Ev.fetchTry 0 false, Ev.sleep 3, Ev.fetchTry 1 false, Ev.sleep 3,
        Ev.fetchTry 2 false, Ev.sleep 3], initFile, skip0, 0, true⟩ := by
    rw [hm]
    simp only [jcLoop]
    rw [if_pos (show 0 < cfg.maxEntries from hmax)]
    simp only [retryFetch, retryFetchAux, hfail 0, hfail 1, hfail 2]
    simp
  simp only [jcMain, hloop]
  cases htk : cfg.hasToken
  · rw [if_neg (by simp [htk])]
    refine ⟨?_, ?_, ?_, rfl, rfl⟩
    · simp [countFetchTry, List.countP_cons]
    · simp [countSleep, List.countP_cons]
    · simp [countSave, List.countP_cons]
  · rw [if_pos (by simp [htk])]
    refine ⟨?_, ?_, ?_, rfl, rfl⟩
    · simp [countFetchTry, List.countP_append, List.countP_cons]
    · simp [countSleep, List.countP_append, List.countP_cons]
    · simp [countSave, List.countP_append, List.countP_cons]

/-- Witness for C5's amended theorem at a concrete all-failing oracle. -/
theorem c5_json_retry_behavior_witness :
    0 < (2 : Nat) ∧
      countFetchTry (jcMain ⟨100, 2, "Tweede Kamer", false⟩
        (fun _ _ => none) 7 []).events = 3 :=
  ⟨by decide,
    (c5_json_retry_behavior ⟨100, 2, "Tweede Kamer", false⟩ (fun _ _ => none) 7 []
      (by decide) (fun _ => rfl)).1⟩

/-- C5 counterexample: batched_ingest performs a single fetch attempt with no
retry and no sleep — fetch_api_page catches the exception and returns
([], None), which main treats as end of feed (saving the unchanged skiptoken)
rather than retrying 3 times with a 3-unit delay and aborting. -/
theorem c5_counterexample :
    (bMain ⟨10, 2⟩ (fun _ => none) 5 3).events = [Ev.fetchTry 0 false, Ev.save 5] ∧
      countFetchTry (bMain ⟨10, 2⟩ (fun _ => none) 5 3).events = 1 ∧
      countSleep (bMain ⟨10, 2⟩ (fun _ => none) 5 3).events = 0 ∧
      countFetchTry (bMain ⟨10, 2⟩ (fun _ => none) 5 3).events ≠ 3 :=
  ⟨by decide, by decide, by decide, by decide⟩

end TK
